import Mathlib

set_option linter.unusedVariables false

namespace LVN

/-- Instructions of the JSON-encoded IR, mirroring the serde struct
`Instruction` with fields `op`, `dest`, `value`, `type`, `args`, `labels`,
`label`.  The `i64` literal is modelled as `Int`: the pass only compares
literals for equality and never performs arithmetic on them, so machine
overflow cannot be observed. -/
structure Instruction where
  op : Option String
  dest : Option String
  value : Option Int
  type_ : Option String
  args : List String
  labels : List String
  label : Option String
deriving DecidableEq, Repr

/-- Mirrors `Instruction::is_terminator`: the opcode is `jmp`, `br` or `ret`. -/
def Instruction.is_terminator (i : Instruction) : Bool :=
  match i.op with
  | some op => op == "jmp" || op == "br" || op == "ret"
  | none => false

/-- Mirrors `Instruction::is_label`: the `label` field is present. -/
def Instruction.is_label (i : Instruction) : Bool :=
  i.label.isSome

/-- Mirrors the Rust struct `Block`: an instruction list plus successor
indices. -/
structure Block where
  instrs : List Instruction
  next_blocks : List Nat
deriving DecidableEq, Repr

/-- Mirrors the Rust struct `ControlFlowGraph`. -/
structure ControlFlowGraph where
  blocks : List Block
deriving DecidableEq, Repr

/-- Mirrors the Rust struct `NamedArg` (a function formal parameter). -/
structure NamedArg where
  name : String
  type_ : String
deriving DecidableEq, Repr

/-- Mirrors the Rust struct `Function`: name, instruction list, formal
parameters. -/
structure Function where
  name : String
  instrs : List Instruction
  args : List NamedArg
deriving DecidableEq, Repr

/-- Mirrors `ControlFlowGraph::to_instrs`: concatenate all blocks'
instructions in block order. -/
def ControlFlowGraph.to_instrs (cfg : ControlFlowGraph) : List Instruction :=
  (cfg.blocks.map Block.instrs).flatten

/-- Mirrors the `flush_block` closure in `construct_control_flow_graph`:
emit the current buffer as a block when it is non-empty. -/
def flushBlock (blocks : List Block) (cur : List Instruction) : List Block :=
  if cur = [] then blocks else blocks ++ [⟨cur, []⟩]

/-- Mirrors the block-splitting loop of `construct_control_flow_graph`:
a label flushes the current buffer before being appended, a terminator
flushes it right after; a trailing non-empty buffer is flushed at the end. -/
def buildBlocksGo (blocks : List Block) (cur : List Instruction) :
    List Instruction → List Block
  | [] => flushBlock blocks cur
  | instr :: rest =>
    let blocks1 := if instr.is_label then flushBlock blocks cur else blocks
    let cur1 := if instr.is_label then [] else cur
    let cur2 := cur1 ++ [instr]
    if instr.is_terminator then buildBlocksGo (flushBlock blocks1 cur2) [] rest
    else buildBlocksGo blocks1 cur2 rest

/-- The block partition of a function's instruction list (first phase of
`construct_control_flow_graph`, before successors are computed). -/
def buildBlocks (instrs : List Instruction) : List Block :=
  buildBlocksGo [] [] instrs

/-- Mirrors the `label_to_block_index` map: the Rust code inserts, for each
block index `i` in ascending order whose first instruction carries a label,
that label with value `i`; a later insertion overwrites an earlier one, so a
query returns the last matching index.  Queried lazily here, which yields
the same mapping.  (The Rust code indexes `block.instrs[0]`; blocks are
never empty, see the nonemptiness theorem below, so the `none` head case is
unreachable.) -/
def labelIndexGo (l : String) : Nat → List Block → Option Nat → Option Nat
  | _, [], acc => acc
  | i, b :: rest, acc =>
    labelIndexGo l (i + 1) rest
      (match b.instrs.head? with
       | some instr =>
         match instr.label with
         | some l2 => if l2 = l then some i else acc
         | none => acc
       | none => acc)

/-- Lookup of a label in the label-to-block-index mapping. -/
def label_to_block_index (blocks : List Block) (l : String) : Option Nat :=
  labelIndexGo l 0 blocks none

/-- Mirrors the successor computation for one block in
`construct_control_flow_graph`: a terminator's target labels are resolved
through the label map (`expect("Label not found")` becomes `none`), any
other last instruction yields the next sequential index.  The Rust code
guards with `if let Some(instr) = block.instrs.last()`, pushing nothing for
an empty block. -/
def blockSuccessors (blocks : List Block) (i : Nat) (b : Block) :
    Option (List Nat) :=
  match b.instrs.getLast? with
  | some instr =>
    if instr.is_terminator then
      instr.labels.mapM (fun l => label_to_block_index blocks l)
    else some [i + 1]
  | none => some []

/-- Mirrors the indexed loop `for i in 0..cfg.blocks.len()` that fills in
`next_blocks` for each block. -/
def attachGo (blocks : List Block) : Nat → List Block → Option (List Block)
  | _, [] => some []
  | i, b :: rest =>
    match blockSuccessors blocks i b with
    | none => none
    | some ns =>
      match attachGo blocks (i + 1) rest with
      | none => none
      | some rest2 => some (⟨b.instrs, ns⟩ :: rest2)

/-- Mirrors `construct_control_flow_graph`: split into blocks, then compute
successors; an undefined branch target makes the whole construction fail
(the Rust process aborts). -/
def construct_control_flow_graph (f : Function) : Option ControlFlowGraph :=
  match attachGo (buildBlocks f.instrs) 0 (buildBlocks f.instrs) with
  | none => none
  | some blocks => some ⟨blocks⟩

/-- Mirrors the Rust enum `Expression`: an opcode applied to argument value
numbers, or a literal constant. -/
inductive Expression where
  | Op : String → List Nat → Expression
  | Const : Int → Expression
deriving DecidableEq, Repr

/-- The state threaded through pass 1 of `run_local_value_numbering`:
`variable_to_number`, `expression_to_number`, `number_to_expression`,
`next_number`, `used_numbers` and the per-instruction `instruction_numbers`
list.  The Rust `HashMap`s are modelled as functions into `Option`, the
Rust `HashSet used_numbers` as a duplicate-free list (insertion order is
kept; the set is only ever queried for membership). -/
structure Pass1State where
  variable_to_number : String → Option Nat
  expression_to_number : Expression → Option Nat
  number_to_expression : Nat → Option Expression
  next_number : Nat
  used_numbers : List Nat
  instruction_numbers : List (Option Nat)

/-- Insert into a set-as-list only when absent (Rust `HashSet::insert`). -/
def addIfAbsent (u : List Nat) (n : Nat) : List Nat :=
  if u.contains n then u else u ++ [n]

/-- The value expression a destination-bearing instruction resolves to in a
given pass-1 state: the literal for `const`, otherwise the opcode applied
to the argument variables' current value numbers.  `none` models the Rust
panics (`expect("No op found")`, `value.unwrap()`,
`expect("No number for variable")`). -/
def resolvedExpression (st : Pass1State) (instr : Instruction) :
    Option Expression :=
  match instr.op with
  | none => none
  | some op =>
    if op = "const" then
      match instr.value with
      | none => none
      | some v => some (Expression.Const v)
    else
      match instr.args.mapM st.variable_to_number with
      | none => none
      | some args => some (Expression.Op op args)

/-- One step of pass 1 of `run_local_value_numbering` (the numbering loop).
A destination-bearing instruction resolves its expression, reuses the
expression's number if already canonicalized or allocates a fresh one
(`entry().or_insert_with`), records the expression for the number, and
binds the destination to the number.  An instruction without destination
but with an opcode resolves its arguments and marks their numbers used. -/
def pass1Step (st : Pass1State) (instr : Instruction) : Option Pass1State :=
  match instr.dest with
  | some dest =>
    match resolvedExpression st instr with
    | none => none
    | some expression =>
      match st.expression_to_number expression with
      | some number =>
        some { st with
          number_to_expression := fun n =>
            if n = number then some expression else st.number_to_expression n,
          variable_to_number := fun v =>
            if v = dest then some number else st.variable_to_number v,
          instruction_numbers := st.instruction_numbers ++ [some number] }
      | none =>
        some { st with
          expression_to_number := fun e =>
            if e = expression then some st.next_number
            else st.expression_to_number e,
          number_to_expression := fun n =>
            if n = st.next_number then some expression
            else st.number_to_expression n,
          variable_to_number := fun v =>
            if v = dest then some st.next_number else st.variable_to_number v,
          next_number := st.next_number + 1,
          instruction_numbers := st.instruction_numbers ++ [some st.next_number] }
  | none =>
    match instr.op with
    | some _ =>
      match instr.args.mapM st.variable_to_number with
      | none => none
      | some nums =>
        some { st with
          used_numbers := nums.foldl addIfAbsent st.used_numbers,
          instruction_numbers := st.instruction_numbers ++ [none] }
    | none =>
      some { st with instruction_numbers := st.instruction_numbers ++ [none] }

/-- The empty pass-1 state all maps fresh, as at the top of
`run_local_value_numbering`. -/
def initialPass1State : Pass1State :=
  { variable_to_number := fun _ => none,
    expression_to_number := fun _ => none,
    number_to_expression := fun _ => none,
    next_number := 0,
    used_numbers := [],
    instruction_numbers := [] }

/-- Pass 1 over a whole block. -/
def pass1 (instrs : List Instruction) : Option Pass1State :=
  instrs.foldlM pass1Step initialPass1State

/-- The argument value numbers inside an expression. -/
def exprArgs : Expression → List Nat
  | Expression.Op _ args => args
  | Expression.Const _ => []

/-- One round of the liveness closure: add the expression arguments of every
currently used number.  (In the Rust worklist the popped number's expression
lookup is `unwrap`; a used number always has a recorded expression because
it came out of `variable_to_number`, whose range is recorded in
`number_to_expression`, so the `none` branch is unreachable.) -/
def expandUsed (n2e : Nat → Option Expression) (used : List Nat) : List Nat :=
  used.foldl (fun acc n =>
    match n2e n with
    | some e => (exprArgs e).foldl addIfAbsent acc
    | none => acc) used

/-- The transitive liveness closure computed by the Rust worklist queue.
Because a recorded expression's argument numbers are strictly smaller than
the number it is recorded under (numbers are allocated in increasing order,
from arguments that already exist), every dependency chain has length at
most `next_number`, so iterating one round that many times reaches the same
fixed point as the queue traversal. -/
def closeUsed (n2e : Nat → Option Expression) (used : List Nat) :
    Nat → List Nat
  | 0 => used
  | fuel + 1 => closeUsed n2e (expandUsed n2e used) fuel

/-- The state threaded through pass 3 of `run_local_value_numbering`
(rewrite and prune): the output buffer `new_instrs`, the canonical-name map
`number_to_canonical_dest`, the rebuilt `new_variable_to_number`, and the
shrinking used set. -/
structure Pass3State where
  new_instrs : List Instruction
  number_to_canonical_dest : Nat → Option String
  new_variable_to_number : String → Option Nat
  used : List Nat

/-- Rewrite every argument to the canonical destination of its value number
(the inner `for arg in new_instr.args.iter_mut()` loops); `none` models the
two `expect` panics there. -/
def rewriteInstrArgs (nv : String → Option Nat) (canon : Nat → Option String)
    (instr : Instruction) : Option Instruction :=
  match instr.args.mapM (fun arg =>
      match nv arg with
      | some n => canon n
      | none => none) with
  | none => none
  | some newArgs => some { instr with args := newArgs }

/-- One step of pass 3, mirroring the Rust loop body: a numbered (hence
destination-bearing) instruction first records its destination's number in
the rebuilt variable map; if its number is still used it becomes the
canonical producer of that number, is emitted with rewritten arguments, and
its number is removed from the used set, otherwise it is dropped.  An
unnumbered instruction is always emitted with rewritten arguments. -/
def pass3Step (st : Pass3State) (p : Option Nat × Instruction) :
    Option Pass3State :=
  match p.1 with
  | some number =>
    match p.2.dest with
    | none => none
    | some dest =>
      let nv := fun v =>
        if v = dest then some number else st.new_variable_to_number v
      if st.used.contains number then
        let canon := fun n =>
          if n = number then some dest else st.number_to_canonical_dest n
        match rewriteInstrArgs nv canon p.2 with
        | none => none
        | some newInstr =>
          some { new_instrs := st.new_instrs ++ [newInstr],
                 number_to_canonical_dest := canon,
                 new_variable_to_number := nv,
                 used := st.used.erase number }
      else
        some { st with new_variable_to_number := nv }
  | none =>
    match rewriteInstrArgs st.new_variable_to_number
        st.number_to_canonical_dest p.2 with
    | none => none
    | some newInstr =>
      some { st with new_instrs := st.new_instrs ++ [newInstr] }

/-- The fresh pass-3 state. -/
def initialPass3State (used : List Nat) : Pass3State :=
  { new_instrs := [],
    number_to_canonical_dest := fun _ => none,
    new_variable_to_number := fun _ => none,
    used := used }

/-- Pass 3 over a whole block: the Rust loop walks the instructions together
with their recorded `instruction_numbers`. -/
def pass3 (instrs : List Instruction) (numbers : List (Option Nat))
    (used : List Nat) : Option Pass3State :=
  (numbers.zip instrs).foldlM pass3Step (initialPass3State used)

/-- Mirrors `run_local_value_numbering`: number the definitions, close the
used set, rewrite and prune; the result replaces the block's instruction
list.  `none` models any of the Rust panics inside. -/
def run_local_value_numbering (block : Block) : Option Block :=
  match pass1 block.instrs with
  | none => none
  | some st1 =>
    let used := closeUsed st1.number_to_expression st1.used_numbers
      st1.next_number
    match pass3 block.instrs st1.instruction_numbers used with
    | none => none
    | some st3 => some { block with instrs := st3.new_instrs }

/-- Mirrors `eliminate_dead_code`: run LVN on every block of the CFG. -/
def eliminate_dead_code (cfg : ControlFlowGraph) : Option ControlFlowGraph :=
  match cfg.blocks.mapM run_local_value_numbering with
  | none => none
  | some blocks => some ⟨blocks⟩

/-- Mirrors the per-function body of `main`: build the CFG, run LVN/DCE on
every block, and replace the function's instructions with the flattened
result.  Name and formal parameters are carried over unchanged. -/
def processFunction (f : Function) : Option Function :=
  match construct_control_flow_graph f with
  | none => none
  | some cfg =>
    match eliminate_dead_code cfg with
    | none => none
    | some cfg2 => some { f with instrs := cfg2.to_instrs }

/-- Two instructions agree on every field except possibly the argument
names, of which there are equally many: the relation between an output
instruction of the pass and the input instruction it was cloned from. -/
def InstrShapeEq (o ins : Instruction) : Prop :=
  o.op = ins.op ∧ o.dest = ins.dest ∧ o.value = ins.value ∧
  o.type_ = ins.type_ ∧ o.labels = ins.labels ∧ o.label = ins.label ∧
  o.args.length = ins.args.length

/-- A `const` instruction `d = const v` of type int. -/
def mkConst (d : String) (v : Int) : Instruction :=
  ⟨some "const", some d, some v, some "int", [], [], none⟩

/-- A value instruction `d = op as...` of type int. -/
def mkOp (op : String) (d : String) (as : List String) : Instruction :=
  ⟨some op, some d, none, some "int", as, [], none⟩

/-- An effect instruction `op as...` without destination. -/
def mkEffect (op : String) (as : List String) : Instruction :=
  ⟨some op, none, none, none, as, [], none⟩

/-- A label marker. -/
def mkLabel (l : String) : Instruction :=
  ⟨none, none, none, none, [], [], some l⟩

/-- An unconditional jump to label `l`. -/
def mkJmp (l : String) : Instruction :=
  ⟨some "jmp", none, none, none, [], [l], none⟩

/-- A return instruction. -/
def mkRet : Instruction :=
  ⟨some "ret", none, none, none, [], [], none⟩

/-- The block of the worked example in the spec:
`[a = const 4; b = const 4; c = add a b; d = add a b; print c; print d]`. -/
def exampleBlock : Block :=
  ⟨[mkConst "a" 4, mkConst "b" 4, mkOp "add" "c" ["a", "b"],
    mkOp "add" "d" ["a", "b"], mkEffect "print" ["c"],
    mkEffect "print" ["d"]], []⟩

/-- A block whose first instruction consumes the function parameter `p`,
which is never assigned inside the block. -/
def externalRefBlock : Block :=
  ⟨[mkOp "id" "c" ["p"], mkEffect "print" ["c"]], []⟩

/-- A block in which the variable `a` is reassigned:
`[b = const 4; c = id b; a = id b; a = add a a; print a]`.  The two `id b`
instructions share a value number, so `a = id b` is pruned; but pass 3
records the reassigning instruction's own destination before resolving its
arguments, so the kept `a = add a a` still references the pruned name. -/
def clobInstrs : List Instruction :=
  [mkConst "b" 4, mkOp "id" "c" ["b"], mkOp "id" "a" ["b"],
   mkOp "add" "a" ["a", "a"], mkEffect "print" ["a"]]

/-- The reassignment block as a single basic block. -/
def clobBlock : Block :=
  ⟨clobInstrs, []⟩

/-- The reassignment block wrapped as a whole function. -/
def fClob : Function :=
  ⟨"main", clobInstrs, []⟩

/-- A function consisting of a single `const` instruction: one block, no
terminator, and it is the last block. -/
def fLastBlock : Function :=
  ⟨"f", [mkConst "x" 4], []⟩

/-- A block with two distinct constants sharing opcode `const` and the empty
argument list: `[x = const 4; y = const 5; print x; print y]`. -/
def twoConstBlock : Block :=
  ⟨[mkConst "x" 4, mkConst "y" 5, mkEffect "print" ["x"],
    mkEffect "print" ["y"]], []⟩

/-- A function with an empty instruction list. -/
def fEmpty : Function :=
  ⟨"empty", [], []⟩

/-- A function with a jump, a labelled block, and a return:
`[jmp .L; .L: ret]`. -/
def fJmp : Function :=
  ⟨"g", [mkJmp "L", mkLabel "L", mkRet], []⟩

/-- The worked example block wrapped as a function with one formal
parameter. -/
def fExample : Function :=
  ⟨"ex", [mkConst "a" 4, mkConst "b" 4, mkOp "add" "c" ["a", "b"],
          mkOp "add" "d" ["a", "b"], mkEffect "print" ["c"],
          mkEffect "print" ["d"]], [⟨"p", "int"⟩]⟩

/-- A block with two identical constants and distinct destinations:
`[x = const 4; y = const 4; print x; print y]`. -/
def dupConstBlock : Block :=
  ⟨[mkConst "x" 4, mkConst "y" 4, mkEffect "print" ["x"],
    mkEffect "print" ["y"]], []⟩

/-- C1: the claim says a destination-bearing non-constant instruction whose
argument is defined outside the block (here the function parameter `p`)
does not raise an error and receives an opaque value number.  The code
instead panics (`expect("No number for variable")`, modelled as `none`):
on the block `[c = id p; print c]` the LVN engine fails. -/
theorem external_reference_panics :
    run_local_value_numbering externalRefBlock = none := by
  rfl

/-- C3: on the spec's worked example block
`[a = const 4; b = const 4; c = add a b; d = add a b; print c; print d]`
the LVN/DCE engine produces exactly
`[a = const 4; c = add a a; print c; print c]`. -/
theorem lvn_example_block :
    run_local_value_numbering exampleBlock =
      some ⟨[mkConst "a" 4, mkOp "add" "c" ["a", "a"],
             mkEffect "print" ["c"], mkEffect "print" ["c"]], []⟩ := by
  rfl

/-- C6: the claim says every argument of a kept instruction is the
destination of an earlier kept instruction or an external value, and that
no dropped instruction's destination is referenced by a kept instruction.
On the reassignment block `[b = const 4; c = id b; a = id b; a = add a a;
print a]` the engine drops `a = id b` yet keeps `a = add a a`, whose
argument `a` is not produced by any earlier kept instruction and is not
external (it was defined inside the original block): pass 3 records the
instruction's own destination in the rebuilt variable map before resolving
its arguments, so the self-named argument resolves to the instruction's own
number instead of the surviving producer `c`. -/
theorem dce_soundness_violated :
    run_local_value_numbering clobBlock =
      some ⟨[mkConst "b" 4, mkOp "id" "c" ["b"], mkOp "add" "a" ["a", "a"],
             mkEffect "print" ["a"]], []⟩ ∧
    mkOp "id" "a" ["b"] ∈ clobBlock.instrs ∧
    "a" ∈ (mkOp "add" "a" ["a", "a"]).args ∧
    ([mkConst "b" 4, mkOp "id" "c" ["b"]].filterMap Instruction.dest
      = ["b", "c"]) := by
  refine ⟨rfl, ?_, ?_, rfl⟩ <;> decide

/-- C8: the claim says the whole pass is idempotent.  On the function whose
body is the reassignment block, the first run succeeds but its output
references a variable with no remaining definition, so the second run of
the very same pass aborts (`none`) instead of reproducing its input. -/
theorem pass_not_idempotent :
    (processFunction fClob).isSome = true ∧
    (processFunction fClob).bind processFunction = none := by
  exact ⟨rfl, rfl⟩

/-- C2 counterexample: the claim says a block that does not end in a
terminator and is the last block has no successors.  On a function whose
single block `[x = const 4]` has no terminator, the code still pushes the
next sequential index: the sole block's successor list is `[1]`, an index
one past the end, not `[]`. -/
theorem last_block_successor_counterexample :
    construct_control_flow_graph fLastBlock =
      some ⟨[⟨[mkConst "x" 4], [1]⟩]⟩ ∧
    (mkConst "x" 4).is_terminator = false := by
  exact ⟨rfl, rfl⟩

/-- C5 counterexample: the claim says two destination-bearing instructions
with the same opcode and the same ordered list of resolved argument value
numbers get the same value number.  `x = const 4` and `y = const 5` share
the opcode `const` and the empty argument list, yet receive the distinct
numbers 0 and 1, because constants are keyed by their literal value. -/
theorem const_congruence_counterexample :
    (pass1 twoConstBlock.instrs).map Pass1State.instruction_numbers =
      some [some 0, some 1, none, none] ∧
    (mkConst "x" 4).op = (mkConst "y" 5).op ∧
    (mkConst "x" 4).args = (mkConst "y" 5).args ∧
    twoConstBlock.instrs.get? 0 = some (mkConst "x" 4) ∧
    twoConstBlock.instrs.get? 1 = some (mkConst "y" 5) := by
  exact ⟨rfl, rfl, rfl, rfl, rfl⟩

/-- Flushing the buffer appends exactly the buffered instructions to the
flattened output. -/
theorem flushBlock_flatten (blocks : List Block) (cur : List Instruction) :
    ((flushBlock blocks cur).map Block.instrs).flatten
      = (blocks.map Block.instrs).flatten ++ cur := by
  by_cases hc : cur = [] <;> simp [flushBlock, hc]

/-- The block-splitting loop emits every instruction exactly once, in
original order: flattening its output extends the flattened accumulator by
the buffer and the remaining input. -/
theorem buildBlocksGo_flatten (rest : List Instruction) :
    ∀ blocks cur,
      ((buildBlocksGo blocks cur rest).map Block.instrs).flatten
        = (blocks.map Block.instrs).flatten ++ (cur ++ rest) := by
  induction rest with
  | nil =>
    intro blocks cur
    simp [buildBlocksGo, flushBlock_flatten]
  | cons instr rest ih =>
    intro blocks cur
    by_cases hl : instr.is_label <;> by_cases ht : instr.is_terminator <;>
      simp [buildBlocksGo, hl, ht, ih, flushBlock_flatten]

/-- The block partition of an instruction list flattens back to the list. -/
theorem buildBlocks_flatten (instrs : List Instruction) :
    (((buildBlocks instrs).map Block.instrs)).flatten = instrs := by
  simpa using buildBlocksGo_flatten instrs [] []

/-- The successor-attaching loop leaves every block's instruction list
unchanged. -/
theorem attachGo_map_instrs (blocks : List Block) :
    ∀ (bs : List Block) (i : Nat) (bs' : List Block),
      attachGo blocks i bs = some bs' →
      bs'.map Block.instrs = bs.map Block.instrs := by
  intro bs
  induction bs with
  | nil =>
    intro i bs' h
    simp only [attachGo] at h
    cases h
    rfl
  | cons b rest ih =>
    intro i bs' h
    simp only [attachGo] at h
    cases hns : blockSuccessors blocks i b with
    | none => rw [hns] at h; cases h
    | some ns =>
      rw [hns] at h
      cases hrest : attachGo blocks (i + 1) rest with
      | none => rw [hrest] at h; cases h
      | some rest2 =>
        rw [hrest] at h
        cases h
        simp [ih (i + 1) rest2 hrest]

/-- The blocks of a successfully constructed CFG carry exactly the
instruction lists of the block partition. -/
theorem cfg_construct_map_instrs (f : Function) (cfg : ControlFlowGraph)
    (h : construct_control_flow_graph f = some cfg) :
    cfg.blocks.map Block.instrs = (buildBlocks f.instrs).map Block.instrs := by
  unfold construct_control_flow_graph at h
  cases hat : attachGo (buildBlocks f.instrs) 0 (buildBlocks f.instrs) with
  | none => rw [hat] at h; cases h
  | some blocks =>
    rw [hat] at h
    cases h
    exact attachGo_map_instrs _ _ _ _ hat

/-- Flattening a freshly constructed CFG reproduces the function's
instruction sequence. -/
theorem cfg_flatten_instrs (f : Function) (cfg : ControlFlowGraph)
    (h : construct_control_flow_graph f = some cfg) :
    cfg.to_instrs = f.instrs := by
  unfold ControlFlowGraph.to_instrs
  rw [cfg_construct_map_instrs f cfg h, buildBlocks_flatten]

/-- C4: concatenating the instruction lists of all blocks of the freshly
built control-flow graph, in block order and before any optimization,
yields exactly the function's original instruction sequence. -/
theorem cfg_flatten_eq (f : Function) (cfg : ControlFlowGraph)
    (h : construct_control_flow_graph f = some cfg) :
    cfg.to_instrs = f.instrs :=
  cfg_flatten_instrs f cfg h

/-- Witness for the block-partition theorem at the one-instruction
function. -/
theorem cfg_flatten_eq_witness :
    ControlFlowGraph.to_instrs ⟨[⟨[mkConst "x" 4], [1]⟩]⟩ =
      fLastBlock.instrs :=
  cfg_flatten_eq fLastBlock ⟨[⟨[mkConst "x" 4], [1]⟩]⟩ rfl

/-- Flushing preserves nonemptiness of all emitted blocks: the buffer is
only emitted when non-empty. -/
theorem flushBlock_ne_nil (blocks : List Block) (cur : List Instruction)
    (h : ∀ b ∈ blocks, b.instrs ≠ []) :
    ∀ b ∈ flushBlock blocks cur, b.instrs ≠ [] := by
  by_cases hc : cur = [] <;> simp only [flushBlock, hc, if_true, if_false]
  · simpa using h
  · intro b hb
    rcases List.mem_append.mp hb with h1 | h2
    · exact h b h1
    · simp only [List.mem_singleton] at h2
      subst h2
      simpa using hc

/-- Every block emitted by the splitting loop is non-empty. -/
theorem buildBlocksGo_ne_nil (rest : List Instruction) :
    ∀ blocks cur, (∀ b ∈ blocks, b.instrs ≠ []) →
      ∀ b ∈ buildBlocksGo blocks cur rest, b.instrs ≠ [] := by
  induction rest with
  | nil =>
    intro blocks cur h
    exact flushBlock_ne_nil blocks cur h
  | cons instr rest ih =>
    intro blocks cur h
    by_cases hl : instr.is_label <;> by_cases ht : instr.is_terminator <;>
        simp only [buildBlocksGo, hl, ht, if_true, if_false]
    · exact ih _ [] (flushBlock_ne_nil _ _ (flushBlock_ne_nil _ _ h))
    · exact ih _ _ (flushBlock_ne_nil _ _ h)
    · exact ih _ [] (flushBlock_ne_nil _ _ h)
    · exact ih _ _ h

/-- C9: every block of a control-flow graph returned by the builder
contains at least one instruction, so the builder's accesses to a block's
first and last instruction cannot fail. -/
theorem cfg_blocks_nonempty (f : Function) (cfg : ControlFlowGraph)
    (h : construct_control_flow_graph f = some cfg) :
    ∀ b ∈ cfg.blocks, b.instrs ≠ [] := by
  intro b hb
  have hm := cfg_construct_map_instrs f cfg h
  have hmem : b.instrs ∈ (buildBlocks f.instrs).map Block.instrs := by
    rw [← hm]
    exact List.mem_map_of_mem _ hb
  rcases List.mem_map.mp hmem with ⟨b0, hb0, heq⟩
  rw [← heq]
  exact buildBlocksGo_ne_nil f.instrs [] [] (by simp) b0 hb0

/-- Witness for nonemptiness at the function with an empty instruction
list, on which the builder succeeds with zero blocks. -/
theorem cfg_blocks_nonempty_witness :
    construct_control_flow_graph fEmpty = some ⟨[]⟩ ∧
    ∀ b ∈ (ControlFlowGraph.mk []).blocks, b.instrs ≠ [] :=
  ⟨rfl, cfg_blocks_nonempty fEmpty ⟨[]⟩ rfl⟩

/-- A member of the tail of `cur ++ [x]` is a member of `cur`'s tail or is
`x` itself. -/
theorem mem_tail_append_single {α : Type} {i x : α} {cur : List α}
    (h : i ∈ (cur ++ [x]).tail) : i ∈ cur.tail ∨ i = x := by
  cases cur with
  | nil => simp at h
  | cons c cs =>
    simp only [List.cons_append, List.tail_cons] at h
    simpa using List.mem_append.mp h

/-- Every block emitted by the splitting loop has labels only at its head
and terminators only at its last position, provided the accumulated blocks
do and the buffer's tail is label-free and the buffer terminator-free. -/
theorem buildBlocksGo_shape (rest : List Instruction) :
    ∀ blocks cur,
      (∀ b ∈ blocks, (∀ i ∈ b.instrs.tail, i.is_label = false) ∧
        (∀ i ∈ b.instrs.dropLast, i.is_terminator = false)) →
      (∀ i ∈ cur.tail, i.is_label = false) →
      (∀ i ∈ cur, i.is_terminator = false) →
      ∀ b ∈ buildBlocksGo blocks cur rest,
        (∀ i ∈ b.instrs.tail, i.is_label = false) ∧
        (∀ i ∈ b.instrs.dropLast, i.is_terminator = false) := by
  have hflush : ∀ (blocks : List Block) (cur : List Instruction),
      (∀ b ∈ blocks, (∀ i ∈ b.instrs.tail, i.is_label = false) ∧
        (∀ i ∈ b.instrs.dropLast, i.is_terminator = false)) →
      (∀ i ∈ cur.tail, i.is_label = false) →
      (∀ i ∈ cur.dropLast, i.is_terminator = false) →
      ∀ b ∈ flushBlock blocks cur,
        (∀ i ∈ b.instrs.tail, i.is_label = false) ∧
        (∀ i ∈ b.instrs.dropLast, i.is_terminator = false) := by
    intro blocks cur h hc1 hc2 b hb
    by_cases hcn : cur = []
    · simp only [flushBlock, hcn, if_true] at hb
      exact h b (by simpa [hcn] using hb)
    · simp only [flushBlock, hcn, if_false] at hb
      rcases List.mem_append.mp hb with h1 | h2
      · exact h b h1
      · simp only [List.mem_singleton] at h2
        subst h2
        exact ⟨hc1, hc2⟩
  induction rest with
  | nil =>
    intro blocks cur h hc1 hc2
    exact hflush blocks cur h hc1
      (fun i hi => hc2 i (List.dropLast_subset _ hi))
  | cons instr rest ih =>
    intro blocks cur h hc1 hc2
    by_cases hl : instr.is_label <;> by_cases ht : instr.is_terminator <;>
        simp only [buildBlocksGo, hl, ht, if_true, if_false]
    · refine ih _ [] ?_ (by simp) (by simp)
      refine hflush _ [instr] (hflush blocks cur h hc1
        (fun i hi => hc2 i (List.dropLast_subset _ hi))) (by simp) (by simp)
    · refine ih _ [instr] (hflush blocks cur h hc1
        (fun i hi => hc2 i (List.dropLast_subset _ hi))) (by simp) ?_
      intro i hi
      simp only [List.mem_singleton] at hi
      subst hi
      simpa using ht
    · refine ih _ [] ?_ (by simp) (by simp)
      refine hflush blocks (cur ++ [instr]) h ?_ ?_
      · intro i hi
        rcases mem_tail_append_single hi with h1 | h2
        · exact hc1 i h1
        · subst h2; simpa using hl
      · intro i hi
        have : (cur ++ [instr]).dropLast = cur := by simp
        rw [this] at hi
        exact hc2 i hi
    · refine ih blocks (cur ++ [instr]) h ?_ ?_
      · intro i hi
        rcases mem_tail_append_single hi with h1 | h2
        · exact hc1 i h1
        · subst h2; simpa using hl
      · intro i hi
        rcases List.mem_append.mp hi with h1 | h2
        · exact hc2 i h1
        · simp only [List.mem_singleton] at h2
          subst h2
          simpa using ht

/-- C7: in every block produced by the CFG builder, a label marker can
occur only as the first instruction, and a terminator (jmp, br or ret) can
occur only as the last instruction: the tail of each block is label-free
and everything before the last instruction is terminator-free. -/
theorem block_shape (f : Function) (cfg : ControlFlowGraph)
    (h : construct_control_flow_graph f = some cfg) :
    ∀ b ∈ cfg.blocks,
      (∀ i ∈ b.instrs.tail, i.is_label = false) ∧
      (∀ i ∈ b.instrs.dropLast, i.is_terminator = false) := by
  intro b hb
  have hm := cfg_construct_map_instrs f cfg h
  have hmem : b.instrs ∈ (buildBlocks f.instrs).map Block.instrs := by
    rw [← hm]
    exact List.mem_map_of_mem _ hb
  rcases List.mem_map.mp hmem with ⟨b0, hb0, heq⟩
  rw [← heq]
  exact buildBlocksGo_shape f.instrs [] [] (by simp) (by simp) (by simp) b0 hb0

/-- Witness for the block-shape theorem at the labelled return block of the
jump/label/return function. -/
theorem block_shape_witness :
    (∀ i ∈ (Block.mk [mkLabel "L", mkRet] []).instrs.tail,
      i.is_label = false) ∧
    (∀ i ∈ (Block.mk [mkLabel "L", mkRet] []).instrs.dropLast,
      i.is_terminator = false) :=
  block_shape fJmp ⟨[⟨[mkJmp "L"], [1]⟩, ⟨[mkLabel "L", mkRet], []⟩]⟩ rfl
    ⟨[mkLabel "L", mkRet], []⟩ (by decide)

/-- Looking up a position in the output of the successor-attaching loop
recovers the input block at the same position together with its computed
successor list. -/
theorem attachGo_get? (blocks : List Block) :
    ∀ (bs : List Block) (i0 : Nat) (bs' : List Block),
      attachGo blocks i0 bs = some bs' →
      ∀ k b', bs'.get? k = some b' →
        ∃ b0 ns, bs.get? k = some b0 ∧
          blockSuccessors blocks (i0 + k) b0 = some ns ∧
          b' = ⟨b0.instrs, ns⟩ := by
  intro bs
  induction bs with
  | nil =>
    intro i0 bs' h k b' hk
    simp only [attachGo] at h
    cases h
    simp at hk
  | cons b rest ih =>
    intro i0 bs' h k b' hk
    simp only [attachGo] at h
    cases hns : blockSuccessors blocks i0 b with
    | none => rw [hns] at h; cases h
    | some ns =>
      rw [hns] at h
      cases hrest : attachGo blocks (i0 + 1) rest with
      | none => rw [hrest] at h; cases h
      | some rest2 =>
        rw [hrest] at h
        cases h
        cases k with
        | zero =>
          simp only [List.get?_cons_zero, Option.some.injEq] at hk
          exact ⟨b, ns, rfl, by simpa using hns, hk.symm⟩
        | succ k =>
          simp only [List.get?_cons_succ] at hk
          rcases ih (i0 + 1) rest2 hrest k b' hk with ⟨b0, ns0, h1, h2, h3⟩
          refine ⟨b0, ns0, h1, ?_, h3⟩
          have : i0 + 1 + k = i0 + (k + 1) := by omega
          rwa [this] at h2

/-- Each input block of the successor-attaching loop reappears at the same
position of the output, with its computed successor list. -/
theorem attachGo_get?_forward (blocks : List Block) :
    ∀ (bs : List Block) (i0 : Nat) (bs' : List Block),
      attachGo blocks i0 bs = some bs' →
      ∀ k b0, bs.get? k = some b0 →
        ∃ ns, blockSuccessors blocks (i0 + k) b0 = some ns ∧
          bs'.get? k = some ⟨b0.instrs, ns⟩ := by
  intro bs
  induction bs with
  | nil =>
    intro i0 bs' h k b0 hk
    simp at hk
  | cons b rest ih =>
    intro i0 bs' h k b0 hk
    simp only [attachGo] at h
    cases hns : blockSuccessors blocks i0 b with
    | none => rw [hns] at h; cases h
    | some ns =>
      rw [hns] at h
      cases hrest : attachGo blocks (i0 + 1) rest with
      | none => rw [hrest] at h; cases h
      | some rest2 =>
        rw [hrest] at h
        cases h
        cases k with
        | zero =>
          simp only [List.get?_cons_zero, Option.some.injEq] at hk
          subst hk
          exact ⟨ns, by simpa using hns, rfl⟩
        | succ k =>
          simp only [List.get?_cons_succ] at hk
          rcases ih (i0 + 1) rest2 hrest k b0 hk with ⟨ns0, h1, h2⟩
          refine ⟨ns0, ?_, by simpa using h2⟩
          have : i0 + 1 + k = i0 + (k + 1) := by omega
          rwa [this] at h1

/-- A successful lookup in the lazily scanned label map yields a position
whose block's first instruction carries the queried label. -/
theorem labelIndexGo_spec (l : String) (Q : Nat → Prop) :
    ∀ (bs : List Block) (i : Nat) (acc : Option Nat),
      (∀ j0, acc = some j0 → Q j0) →
      (∀ k b, bs.get? k = some b →
        (∃ instr, b.instrs.head? = some instr ∧ instr.label = some l) →
        Q (i + k)) →
      ∀ j, labelIndexGo l i bs acc = some j → Q j := by
  intro bs
  induction bs with
  | nil =>
    intro i acc hacc hblocks j h
    simp only [labelIndexGo] at h
    exact hacc j h
  | cons b rest ih =>
    intro i acc hacc hblocks j h
    simp only [labelIndexGo] at h
    refine ih (i + 1) _ ?_ ?_ j h
    · intro j0 hj0
      cases hh : b.instrs.head? with
      | none =>
        rw [hh] at hj0
        exact hacc j0 hj0
      | some instr =>
        rw [hh] at hj0
        have hj1 : (match instr.label with
            | some l2 => if l2 = l then some i else acc
            | none => acc) = some j0 := hj0
        cases hlab : instr.label with
        | none =>
          rw [hlab] at hj1
          exact hacc j0 hj1
        | some l2 =>
          rw [hlab] at hj1
          have hj2 : (if l2 = l then some i else acc) = some j0 := hj1
          by_cases he : l2 = l
          · rw [if_pos he] at hj2
            cases hj2
            have := hblocks 0 b (by simp) ⟨instr, hh, by rw [hlab, he]⟩
            simpa using this
          · rw [if_neg he] at hj2
            exact hacc j0 hj2
    · intro k b' hk hlab
      have := hblocks (k + 1) b' (by simpa using hk) hlab
      have harith : i + (k + 1) = i + 1 + k := by omega
      rwa [harith] at this

/-- A successful `label_to_block_index` lookup returns the index of a block
whose first instruction is the matching label marker. -/
theorem label_to_block_index_spec (blocks : List Block) (l : String) (j : Nat)
    (h : label_to_block_index blocks l = some j) :
    ∃ b, blocks.get? j = some b ∧
      ∃ instr, b.instrs.head? = some instr ∧ instr.label = some l := by
  refine labelIndexGo_spec l
    (fun j => ∃ b, blocks.get? j = some b ∧
      ∃ instr, b.instrs.head? = some instr ∧ instr.label = some l)
    blocks 0 none (by intro j0 hj0; cases hj0) ?_ j h
  intro k b hk hlab
  exact ⟨b, by simpa using hk, hlab⟩

/-- A successful `mapM` over `Option` maps positions to positions. -/
theorem mapM_get?_option {α β : Type} (g : α → Option β) :
    ∀ (L : List α) (ns : List β), L.mapM g = some ns →
      ∀ k v, ns.get? k = some v → ∃ a, L.get? k = some a ∧ g a = some v := by
  intro L
  induction L with
  | nil =>
    intro ns h k v hk
    simp only [List.mapM_nil] at h
    cases h
    simp at hk
  | cons a L ih =>
    intro ns h k v hk
    rw [List.mapM_cons] at h
    cases hga : g a with
    | none => rw [hga] at h; cases h
    | some b =>
      rw [hga] at h
      cases hrest : L.mapM g with
      | none => rw [hrest] at h; cases h
      | some bs =>
        rw [hrest] at h
        have h2 : some (b :: bs) = some ns := h
        cases h2
        cases k with
        | zero =>
          simp only [List.get?_cons_zero, Option.some.injEq] at hk
          subst hk
          exact ⟨a, rfl, hga⟩
        | succ k =>
          simp only [List.get?_cons_succ] at hk
          rcases ih bs hrest k v hk with ⟨a', h1, h2⟩
          exact ⟨a', by simpa using h1, h2⟩

/-- C2 amended: in the constructed CFG, a block not ending in a terminator
has exactly one successor, the next sequential index `i + 1`, even when it
is the last block (the index then refers past the end); a block ending in a
terminator has as successors the label-map resolutions of its target
labels, in order, each being the index of a block whose first instruction
is the matching label marker; a block ending in `ret` (whose labels list is
empty) therefore has no successors. -/
theorem successors_amended (f : Function) (cfg : ControlFlowGraph)
    (i : Nat) (b : Block) (t : Instruction)
    (h : construct_control_flow_graph f = some cfg)
    (hb : cfg.blocks.get? i = some b)
    (ht : b.instrs.getLast? = some t) :
    (t.is_terminator = false → b.next_blocks = [i + 1]) ∧
    (t.is_terminator = true →
      t.labels.mapM (label_to_block_index (buildBlocks f.instrs))
          = some b.next_blocks ∧
      ∀ k j, b.next_blocks.get? k = some j →
        ∃ l bj, t.labels.get? k = some l ∧ cfg.blocks.get? j = some bj ∧
          ∃ instr, bj.instrs.head? = some instr ∧ instr.label = some l) ∧
    (t.op = some "ret" → t.labels = [] → b.next_blocks = []) := by
  unfold construct_control_flow_graph at h
  cases hat : attachGo (buildBlocks f.instrs) 0 (buildBlocks f.instrs) with
  | none => rw [hat] at h; cases h
  | some blocks' =>
    rw [hat] at h
    cases h
    rcases attachGo_get? (buildBlocks f.instrs) (buildBlocks f.instrs) 0
        blocks' hat i b hb with ⟨b0, ns, hb0, hsucc, hbeq⟩
    subst hbeq
    simp only [Nat.zero_add] at hsucc
    unfold blockSuccessors at hsucc
    rw [ht] at hsucc
    have hsucc2 : (if t.is_terminator = true then
        t.labels.mapM (fun l => label_to_block_index (buildBlocks f.instrs) l)
      else some [i + 1]) = some ns := hsucc
    constructor
    · intro hterm
      rw [hterm] at hsucc2
      simp only [Bool.false_eq_true, if_false] at hsucc2
      have h3 : ([i + 1] : List Nat) = ns := Option.some.inj hsucc2
      show ns = [i + 1]
      exact h3.symm
    constructor
    · intro hterm
      rw [hterm, if_pos rfl] at hsucc2
      refine ⟨hsucc2, ?_⟩
      intro k j hk
      rcases mapM_get?_option _ t.labels ns hsucc2 k j hk with ⟨l, hl, hlook⟩
      rcases label_to_block_index_spec (buildBlocks f.instrs) l j hlook with
        ⟨bj0, hbj0, instr, hhead, hlab⟩
      rcases attachGo_get?_forward (buildBlocks f.instrs)
          (buildBlocks f.instrs) 0 blocks' hat j bj0 hbj0 with ⟨nsj, _, hout⟩
      exact ⟨l, ⟨bj0.instrs, nsj⟩, hl, hout, instr, hhead, hlab⟩
    · intro hop hlabs
      have hterm : t.is_terminator = true := by
        simp [Instruction.is_terminator, hop]
      rw [hterm, if_pos rfl, hlabs] at hsucc2
      have h3 : some ([] : List Nat) = some ns := hsucc2
      cases h3
      rfl

/-- Witness for the amended successor theorem, at the jump block of the
jump/label/return function. -/
theorem successors_amended_witness :
    ((mkJmp "L").is_terminator = false →
      (Block.mk [mkJmp "L"] [1]).next_blocks = [0 + 1]) ∧
    ((mkJmp "L").is_terminator = true →
      (mkJmp "L").labels.mapM (label_to_block_index (buildBlocks fJmp.instrs))
          = some (Block.mk [mkJmp "L"] [1]).next_blocks ∧
      ∀ k j, (Block.mk [mkJmp "L"] [1]).next_blocks.get? k = some j →
        ∃ l bj, (mkJmp "L").labels.get? k = some l ∧
          (ControlFlowGraph.mk
            [⟨[mkJmp "L"], [1]⟩, ⟨[mkLabel "L", mkRet], []⟩]).blocks.get? j
              = some bj ∧
          ∃ instr, bj.instrs.head? = some instr ∧ instr.label = some l) ∧
    ((mkJmp "L").op = some "ret" → (mkJmp "L").labels = [] →
      (Block.mk [mkJmp "L"] [1]).next_blocks = []) :=
  successors_amended fJmp
    ⟨[⟨[mkJmp "L"], [1]⟩, ⟨[mkLabel "L", mkRet], []⟩]⟩ 0
    ⟨[mkJmp "L"], [1]⟩ (mkJmp "L") rfl rfl rfl

/-- A successful `mapM` over `Option` preserves the length. -/
theorem mapM_length_option {α β : Type} (g : α → Option β) :
    ∀ (L : List α) (L' : List β), L.mapM g = some L' →
      L'.length = L.length := by
  intro L
  induction L with
  | nil =>
    intro L' h
    simp only [List.mapM_nil] at h
    cases h
    rfl
  | cons a L ih =>
    intro L' h
    rw [List.mapM_cons] at h
    cases hga : g a with
    | none => rw [hga] at h; cases h
    | some b =>
      rw [hga] at h
      cases hrest : L.mapM g with
      | none => rw [hrest] at h; cases h
      | some bs =>
        rw [hrest] at h
        have h2 : some (b :: bs) = some L' := h
        cases h2
        simp [ih bs hrest]

/-- Every element of a successful `mapM` output over `Option` is the image
of an element of the input. -/
theorem mapM_mem_option {α β : Type} (g : α → Option β) :
    ∀ (L : List α) (L' : List β), L.mapM g = some L' →
      ∀ y ∈ L', ∃ x ∈ L, g x = some y := by
  intro L
  induction L with
  | nil =>
    intro L' h y hy
    simp only [List.mapM_nil] at h
    cases h
    simp at hy
  | cons a L ih =>
    intro L' h y hy
    rw [List.mapM_cons] at h
    cases hga : g a with
    | none => rw [hga] at h; cases h
    | some b =>
      rw [hga] at h
      cases hrest : L.mapM g with
      | none => rw [hrest] at h; cases h
      | some bs =>
        rw [hrest] at h
        have h2 : some (b :: bs) = some L' := h
        cases h2
        rcases List.mem_cons.mp hy with h1 | h1
        · subst h1
          exact ⟨a, by simp, hga⟩
        · rcases ih bs hrest y h1 with ⟨x, hx, hgx⟩
          exact ⟨x, by simp [hx], hgx⟩

/-- Rewriting arguments changes only the `args` entries, keeping their
number and every other field. -/
theorem rewriteInstrArgs_shape (nv : String → Option Nat)
    (canon : Nat → Option String) (instr o : Instruction)
    (h : rewriteInstrArgs nv canon instr = some o) :
    InstrShapeEq o instr := by
  unfold rewriteInstrArgs at h
  cases hm : instr.args.mapM (fun arg =>
      match nv arg with
      | some n => canon n
      | none => none) with
  | none => rw [hm] at h; cases h
  | some newArgs =>
    rw [hm] at h
    cases h
    exact ⟨rfl, rfl, rfl, rfl, rfl, rfl, mapM_length_option _ _ _ hm⟩

/-- One pass-3 step either leaves the output buffer unchanged or appends a
single instruction cloned (up to argument renaming) from the processed
instruction. -/
theorem pass3Step_new_instrs (st : Pass3State) (p : Option Nat × Instruction)
    (st' : Pass3State) (h : pass3Step st p = some st') :
    st'.new_instrs = st.new_instrs ∨
    ∃ o, st'.new_instrs = st.new_instrs ++ [o] ∧ InstrShapeEq o p.2 := by
  unfold pass3Step at h
  cases hp1 : p.1 with
  | none =>
    rw [hp1] at h
    cases hrw : rewriteInstrArgs st.new_variable_to_number
        st.number_to_canonical_dest p.2 with
    | none => rw [hrw] at h; cases h
    | some newInstr =>
      rw [hrw] at h
      cases h
      exact Or.inr ⟨newInstr, rfl, rewriteInstrArgs_shape _ _ _ _ hrw⟩
  | some number =>
    rw [hp1] at h
    cases hdest : p.2.dest with
    | none =>
      rw [hdest] at h
      have h2 : (none : Option Pass3State) = some st' := h
      cases h2
    | some dest =>
      rw [hdest] at h
      have h2 : (if st.used.contains number = true then
          match rewriteInstrArgs
              (fun v => if v = dest then some number
                else st.new_variable_to_number v)
              (fun n => if n = number then some dest
                else st.number_to_canonical_dest n) p.2 with
          | none => none
          | some newInstr =>
            some { new_instrs := st.new_instrs ++ [newInstr],
                   number_to_canonical_dest := fun n =>
                     if n = number then some dest
                     else st.number_to_canonical_dest n,
                   new_variable_to_number := fun v =>
                     if v = dest then some number
                     else st.new_variable_to_number v,
                   used := st.used.erase number }
        else
          some { new_instrs := st.new_instrs,
                 number_to_canonical_dest := st.number_to_canonical_dest,
                 new_variable_to_number := fun v =>
                   if v = dest then some number
                   else st.new_variable_to_number v,
                 used := st.used }) = some st' := h
      by_cases hcont : st.used.contains number = true
      · rw [if_pos hcont] at h2
        cases hrw : rewriteInstrArgs
            (fun v => if v = dest then some number
              else st.new_variable_to_number v)
            (fun n => if n = number then some dest
              else st.number_to_canonical_dest n) p.2 with
        | none => rw [hrw] at h2; cases h2
        | some newInstr =>
          rw [hrw] at h2
          cases h2
          exact Or.inr ⟨newInstr, rfl, rewriteInstrArgs_shape _ _ _ _ hrw⟩
      · rw [if_neg hcont] at h2
        cases h2
        exact Or.inl rfl

/-- Every instruction accumulated by the pass-3 fold is either inherited
from the initial buffer or cloned (up to argument renaming) from one of the
processed pairs. -/
theorem pass3_provenance :
    ∀ (L : List (Option Nat × Instruction)) (st st' : Pass3State),
      L.foldlM pass3Step st = some st' →
      ∀ o ∈ st'.new_instrs,
        o ∈ st.new_instrs ∨ ∃ p ∈ L, InstrShapeEq o p.2 := by
  intro L
  induction L with
  | nil =>
    intro st st' h o ho
    have h2 : some st = some st' := h
    cases h2
    exact Or.inl ho
  | cons p L ih =>
    intro st st' h o ho
    rw [List.foldlM_cons] at h
    cases hstep : pass3Step st p with
    | none =>
      rw [hstep] at h
      cases h
    | some st1 =>
      rw [hstep] at h
      have h' : L.foldlM pass3Step st1 = some st' := h
      rcases ih st1 st' h' o ho with hin | ⟨q, hq, hsh⟩
      · rcases pass3Step_new_instrs st p st1 hstep with e | ⟨o2, e, hsh2⟩
        · rw [e] at hin
          exact Or.inl hin
        · rw [e] at hin
          rcases List.mem_append.mp hin with h1 | h1
          · exact Or.inl h1
          · simp only [List.mem_singleton] at h1
            subst h1
            exact Or.inr ⟨p, by simp, hsh2⟩
      · exact Or.inr ⟨q, by simp [hq], hsh⟩

/-- Every instruction in the output of `run_local_value_numbering` is a
clone, up to argument renaming, of an instruction of the input block. -/
theorem run_lvn_provenance (b out : Block)
    (h : run_local_value_numbering b = some out) :
    ∀ o ∈ out.instrs, ∃ ins ∈ b.instrs, InstrShapeEq o ins := by
  unfold run_local_value_numbering at h
  cases h1 : pass1 b.instrs with
  | none => rw [h1] at h; cases h
  | some st1 =>
    rw [h1] at h
    have h2 : (match pass3 b.instrs st1.instruction_numbers
        (closeUsed st1.number_to_expression st1.used_numbers
          st1.next_number) with
      | none => none
      | some st3 =>
        some { instrs := st3.new_instrs,
               next_blocks := b.next_blocks }) = some out := h
    cases h3 : pass3 b.instrs st1.instruction_numbers
        (closeUsed st1.number_to_expression st1.used_numbers
          st1.next_number) with
    | none => rw [h3] at h2; cases h2
    | some st3 =>
      rw [h3] at h2
      cases h2
      intro o ho
      unfold pass3 at h3
      rcases pass3_provenance _ _ _ h3 o ho with hin | ⟨p, hp, hsh⟩
      · simp [initialPass3State] at hin
      · exact ⟨p.2, (List.of_mem_zip hp).2, hsh⟩

/-- C10: the pass changes only the instruction list: the function's name
and formal parameter list are unchanged, and every instruction kept in the
output agrees with an original instruction on op, dest, type, value, labels
and label, with only the entries of args possibly rewritten (their number
unchanged). -/
theorem frame_property (f g : Function) (h : processFunction f = some g) :
    g.name = f.name ∧ g.args = f.args ∧
    ∀ o ∈ g.instrs, ∃ ins ∈ f.instrs, InstrShapeEq o ins := by
  unfold processFunction at h
  cases hc : construct_control_flow_graph f with
  | none => rw [hc] at h; cases h
  | some cfg =>
    rw [hc] at h
    have h2 : (match eliminate_dead_code cfg with
      | none => none
      | some cfg2 =>
        some { name := f.name, instrs := cfg2.to_instrs,
               args := f.args }) = some g := h
    cases hd : eliminate_dead_code cfg with
    | none => rw [hd] at h2; cases h2
    | some cfg2 =>
      rw [hd] at h2
      cases h2
      refine ⟨rfl, rfl, ?_⟩
      intro o ho
      unfold eliminate_dead_code at hd
      cases hm : cfg.blocks.mapM run_local_value_numbering with
      | none => rw [hm] at hd; cases hd
      | some blocks2 =>
        rw [hm] at hd
        cases hd
        unfold ControlFlowGraph.to_instrs at ho
        rcases List.mem_flatten.mp ho with ⟨li, hli, holi⟩
        rcases List.mem_map.mp hli with ⟨b2, hb2, hb2eq⟩
        rcases mapM_mem_option _ _ _ hm b2 hb2 with ⟨b1, hb1, hrun⟩
        rcases run_lvn_provenance b1 b2 hrun o (by rw [hb2eq]; exact holi)
          with ⟨ins, hins, hsh⟩
        refine ⟨ins, ?_, hsh⟩
        have hflat : ins ∈ cfg.to_instrs := by
          unfold ControlFlowGraph.to_instrs
          exact List.mem_flatten.mpr
            ⟨b1.instrs, List.mem_map_of_mem _ hb1, hins⟩
        rwa [cfg_flatten_instrs f cfg hc] at hflat

/-- Witness for the frame property at the worked example wrapped as a
function with a formal parameter. -/
theorem frame_property_witness :
    processFunction fExample =
      some ⟨"ex", [mkConst "a" 4, mkOp "add" "c" ["a", "a"],
        mkEffect "print" ["c"], mkEffect "print" ["c"]], [⟨"p", "int"⟩]⟩ ∧
    ((Function.mk "ex" [mkConst "a" 4, mkOp "add" "c" ["a", "a"],
        mkEffect "print" ["c"], mkEffect "print" ["c"]] [⟨"p", "int"⟩]).name
      = fExample.name ∧
     (Function.mk "ex" [mkConst "a" 4, mkOp "add" "c" ["a", "a"],
        mkEffect "print" ["c"], mkEffect "print" ["c"]] [⟨"p", "int"⟩]).args
      = fExample.args ∧
     ∀ o ∈ (Function.mk "ex" [mkConst "a" 4, mkOp "add" "c" ["a", "a"],
        mkEffect "print" ["c"], mkEffect "print" ["c"]] [⟨"p", "int"⟩]).instrs,
       ∃ ins ∈ fExample.instrs, InstrShapeEq o ins) :=
  ⟨rfl, frame_property fExample _ rfl⟩

/-- A one-element `foldlM` over `Option` is a single application. -/
theorem foldlM_option_single {α β : Type} (g : β → α → Option β) (a : α)
    (b c : β) (h : [a].foldlM g b = some c) : g b a = some c := by
  rw [List.foldlM_cons] at h
  cases hg : g b a with
  | none => rw [hg] at h; cases h
  | some b' =>
    rw [hg] at h
    have h2 : some b' = some c := h
    cases h2
    rfl

/-- A successful `foldlM` over `Option` on an appended list splits into a
successful prefix fold followed by the remaining fold. -/
theorem foldlM_option_prefix {α β : Type} (g : β → α → Option β)
    (l1 l2 : List α) (b c : β) (h : (l1 ++ l2).foldlM g b = some c) :
    ∃ b', l1.foldlM g b = some b' ∧ l2.foldlM g b' = some c := by
  rw [List.foldlM_append] at h
  cases hb' : l1.foldlM g b with
  | none => rw [hb'] at h; cases h
  | some b' =>
    rw [hb'] at h
    exact ⟨b', rfl, h⟩

/-- A pass-1 step never overwrites an existing expression-to-number
binding: the canonical table only grows. -/
theorem pass1Step_e2n_mono (st st' : Pass1State) (instr : Instruction)
    (h : pass1Step st instr = some st') (e : Expression) (n : Nat)
    (he : st.expression_to_number e = some n) :
    st'.expression_to_number e = some n := by
  unfold pass1Step at h
  cases hdest : instr.dest with
  | none =>
    simp only [hdest] at h
    cases hop : instr.op with
    | none =>
      simp only [hop] at h
      cases h
      exact he
    | some op =>
      simp only [hop] at h
      cases hmm : instr.args.mapM st.variable_to_number with
      | none => simp only [hmm] at h; cases h
      | some nums =>
        simp only [hmm] at h
        cases h
        exact he
  | some dest =>
    simp only [hdest] at h
    cases hre : resolvedExpression st instr with
    | none => simp only [hre] at h; cases h
    | some expression =>
      simp only [hre] at h
      cases hlook : st.expression_to_number expression with
      | some number =>
        simp only [hlook] at h
        cases h
        exact he
      | none =>
        simp only [hlook] at h
        cases h
        show (if e = expression then some st.next_number
          else st.expression_to_number e) = some n
        have hne : e ≠ expression := by
          intro hh
          rw [hh] at he
          rw [he] at hlook
          cases hlook
        rw [if_neg hne]
        exact he

/-- A pass-1 step appends exactly one entry to `instruction_numbers`. -/
theorem pass1Step_numbers_append (st st' : Pass1State) (instr : Instruction)
    (h : pass1Step st instr = some st') :
    ∃ x, st'.instruction_numbers = st.instruction_numbers ++ [x] := by
  unfold pass1Step at h
  split at h
  · split at h
    · cases h
    · split at h
      · cases h
        exact ⟨_, rfl⟩
      · cases h
        exact ⟨_, rfl⟩
  · split at h
    · split at h
      · cases h
      · cases h
        exact ⟨_, rfl⟩
    · cases h
      exact ⟨_, rfl⟩

/-- A destination-bearing pass-1 step binds the resolved expression to the
number it appends for the instruction. -/
theorem pass1Step_assign (st st' : Pass1State) (instr : Instruction)
    (dest : String) (e : Expression)
    (h : pass1Step st instr = some st')
    (hdest : instr.dest = some dest)
    (hre : resolvedExpression st instr = some e) :
    ∃ m, st'.instruction_numbers = st.instruction_numbers ++ [some m] ∧
      st'.expression_to_number e = some m := by
  unfold pass1Step at h
  split at h
  · rename_i dest2 hdest2
    split at h
    · rename_i hre2
      rw [hre] at hre2
      cases hre2
    · rename_i expression hre2
      rw [hre] at hre2
      cases hre2
      split at h
      · rename_i number hnum
        cases h
        exact ⟨number, rfl, hnum⟩
      · cases h
        refine ⟨st.next_number, rfl, ?_⟩
        simp
  · rename_i hdest2
    rw [hdest] at hdest2
    cases hdest2

/-- If the resolved expression of a destination-bearing instruction is
already bound to `m`, the pass-1 step appends `some m` (the reuse case of
`entry().or_insert_with`). -/
theorem pass1Step_reuse (st st' : Pass1State) (instr : Instruction)
    (dest : String) (e : Expression) (m : Nat)
    (h : pass1Step st instr = some st')
    (hdest : instr.dest = some dest)
    (hre : resolvedExpression st instr = some e)
    (hbound : st.expression_to_number e = some m) :
    st'.instruction_numbers = st.instruction_numbers ++ [some m] := by
  unfold pass1Step at h
  split at h
  · split at h
    · rename_i hre2
      rw [hre] at hre2
      cases hre2
    · rename_i expression hre2
      rw [hre] at hre2
      cases hre2
      split at h
      · rename_i number hnum
        rw [hbound] at hnum
        cases hnum
        cases h
        rfl
      · rename_i hnone
        rw [hbound] at hnone
        cases hnone
  · rename_i hdest2
    rw [hdest] at hdest2
    cases hdest2

/-- The expression-to-number table only grows along a pass-1 fold. -/
theorem pass1_fold_e2n_mono :
    ∀ (l : List Instruction) (st st' : Pass1State),
      l.foldlM pass1Step st = some st' →
      ∀ e n, st.expression_to_number e = some n →
        st'.expression_to_number e = some n := by
  intro l
  induction l with
  | nil =>
    intro st st' h e n he
    have h2 : some st = some st' := h
    cases h2
    exact he
  | cons a l ih =>
    intro st st' h e n he
    rw [List.foldlM_cons] at h
    cases hstep : pass1Step st a with
    | none => rw [hstep] at h; cases h
    | some st1 =>
      rw [hstep] at h
      have h' : l.foldlM pass1Step st1 = some st' := h
      exact ih st1 st' h' e n (pass1Step_e2n_mono st st1 a hstep e n he)

/-- A pass-1 fold only appends to `instruction_numbers`. -/
theorem pass1_fold_numbers_extend :
    ∀ (l : List Instruction) (st st' : Pass1State),
      l.foldlM pass1Step st = some st' →
      ∃ suf, st'.instruction_numbers = st.instruction_numbers ++ suf := by
  intro l
  induction l with
  | nil =>
    intro st st' h
    have h2 : some st = some st' := h
    cases h2
    exact ⟨[], by simp⟩
  | cons a l ih =>
    intro st st' h
    rw [List.foldlM_cons] at h
    cases hstep : pass1Step st a with
    | none => rw [hstep] at h; cases h
    | some st1 =>
      rw [hstep] at h
      have h' : l.foldlM pass1Step st1 = some st' := h
      rcases ih st1 st' h' with ⟨suf, hsuf⟩
      rcases pass1Step_numbers_append st st1 a hstep with ⟨x, hx⟩
      exact ⟨[x] ++ suf, by rw [hsuf, hx, List.append_assoc]⟩

/-- A pass-1 fold appends one number entry per instruction. -/
theorem pass1_fold_numbers_length :
    ∀ (l : List Instruction) (st st' : Pass1State),
      l.foldlM pass1Step st = some st' →
      st'.instruction_numbers.length = st.instruction_numbers.length
        + l.length := by
  intro l
  induction l with
  | nil =>
    intro st st' h
    have h2 : some st = some st' := h
    cases h2
    simp
  | cons a l ih =>
    intro st st' h
    rw [List.foldlM_cons] at h
    cases hstep : pass1Step st a with
    | none => rw [hstep] at h; cases h
    | some st1 =>
      rw [hstep] at h
      have h' : l.foldlM pass1Step st1 = some st' := h
      rcases pass1Step_numbers_append st st1 a hstep with ⟨x, hx⟩
      have := ih st1 st' h'
      rw [this, hx]
      simp
      omega

/-- Two destination-bearing instructions of a block resolving to the same
value expression are assigned the same value number (the congruence part of
local value numbering, over the canonical expression table). -/
theorem pass1_congruence (instrs : List Instruction) (st : Pass1State)
    (hp : pass1 instrs = some st)
    (i j : Nat) (a b : Instruction) (si sj : Pass1State) (e : Expression)
    (hij : i < j)
    (hai : instrs.get? i = some a) (hbj : instrs.get? j = some b)
    (hda : a.dest.isSome = true) (hdb : b.dest.isSome = true)
    (hsi : pass1 (instrs.take i) = some si)
    (hsj : pass1 (instrs.take j) = some sj)
    (hea : resolvedExpression si a = some e)
    (heb : resolvedExpression sj b = some e) :
    ∃ n, st.instruction_numbers.get? i = some (some n) ∧
         st.instruction_numbers.get? j = some (some n) := by
  rcases Option.isSome_iff_exists.mp hda with ⟨da, hda'⟩
  rcases Option.isSome_iff_exists.mp hdb with ⟨db, hdb'⟩
  have htake_i : instrs.take (i + 1) = instrs.take i ++ [a] := by
    rw [List.take_succ, ← List.get?_eq_getElem?, hai]
    rfl
  -- run the fold up to and including instruction i
  unfold pass1 at hp hsi hsj
  have hp_i : (instrs.take (i + 1) ++ instrs.drop (i + 1)).foldlM pass1Step
      initialPass1State = some st := by
    rw [List.take_append_drop]
    exact hp
  rcases foldlM_option_prefix _ _ _ _ _ hp_i with ⟨s1, hs1, hrest1⟩
  rw [htake_i] at hs1
  rcases foldlM_option_prefix _ _ _ _ _ hs1 with ⟨si2, hsi2, hstep_i⟩
  rw [hsi] at hsi2
  cases hsi2
  have hstep_i' := foldlM_option_single _ _ _ _ hstep_i
  rcases pass1Step_assign si s1 a da e hstep_i' hda' hea with ⟨m, hm1, hm2⟩
  -- carry the binding to the state before instruction j
  have htake_j : instrs.take j = instrs.take (i + 1)
      ++ (instrs.take j).drop (i + 1) := by
    have h1 : (instrs.take j).take (i + 1) = instrs.take (i + 1) := by
      rw [List.take_take]
      congr 1
      omega
    conv_lhs => rw [← List.take_append_drop (i + 1) (instrs.take j)]
    rw [h1]
  rw [htake_j] at hsj
  rcases foldlM_option_prefix _ _ _ _ _ hsj with ⟨s1', hs1', hmid⟩
  rw [htake_i] at hs1'
  rcases foldlM_option_prefix _ _ _ _ _ hs1' with ⟨si3, hsi3, hstep_i2⟩
  rw [hsi] at hsi3
  cases hsi3
  have hstep_i2' := foldlM_option_single _ _ _ _ hstep_i2
  rw [hstep_i'] at hstep_i2'
  cases hstep_i2'
  have hsj_bound : sj.expression_to_number e = some m :=
    pass1_fold_e2n_mono _ _ _ hmid e m hm2
  -- the step at instruction j reuses m
  have hj_lt : j < instrs.length := by
    rcases List.get?_eq_some.mp hbj with ⟨hlt, _⟩
    exact hlt
  have hp_j : (instrs.take j ++ instrs.drop j).foldlM pass1Step
      initialPass1State = some st := by
    rw [List.take_append_drop]
    exact hp
  rcases foldlM_option_prefix _ _ _ _ _ hp_j with ⟨sj2, hsj2, hrestj⟩
  rw [htake_j] at hsj2
  rw [hsj] at hsj2
  cases hsj2
  have hdrop_j : instrs.drop j = b :: instrs.drop (j + 1) := by
    rcases List.get?_eq_some.mp hbj with ⟨hlt, hget⟩
    rw [List.drop_eq_get_cons hlt, hget]
  rw [hdrop_j, List.foldlM_cons] at hrestj
  cases hstep_j : pass1Step sj b with
  | none => rw [hstep_j] at hrestj; cases hrestj
  | some sj1 =>
    rw [hstep_j] at hrestj
    have hrestj' : (instrs.drop (j + 1)).foldlM pass1Step sj1 = some st :=
      hrestj
    have hsj1 : sj1.instruction_numbers = sj.instruction_numbers ++ [some m] :=
      pass1Step_reuse sj sj1 b db e m hstep_j hdb' heb hsj_bound
    -- lengths of the prefix number lists
    have hlen_i : si.instruction_numbers.length = i := by
      have := pass1_fold_numbers_length _ _ _ hsi
      simpa [initialPass1State, List.length_take, Nat.min_eq_left
        (by omega : i ≤ instrs.length)] using this
    have hlen_j : sj.instruction_numbers.length = j := by
      have := pass1_fold_numbers_length _ _ _ hsj
      rw [← htake_j] at this
      simpa [initialPass1State, List.length_take, Nat.min_eq_left
        (by omega : j ≤ instrs.length)] using this
    -- the final number list extends both prefixes
    rcases pass1_fold_numbers_extend _ _ _ hrest1 with ⟨suf1, hsuf1⟩
    rcases pass1_fold_numbers_extend _ _ _ hrestj' with ⟨suf2, hsuf2⟩
    refine ⟨m, ?_, ?_⟩
    · rw [hsuf1, hm1, List.append_assoc]
      rw [List.get?_append_right (by omega)]
      rw [hlen_i]
      simp
    · rw [hsuf2, hsj1, List.append_assoc]
      rw [List.get?_append_right (by omega)]
      rw [hlen_j]
      simp

/-- Bridge between the boolean `contains` used by the code and list
membership. -/
theorem contains_true_iff_mem (l : List Nat) (n : Nat) :
    l.contains n = true ↔ n ∈ l :=
  List.elem_iff

/-- Every rewritten argument is a canonical destination recorded in the
canonical-name map used for the rewrite. -/
theorem rewriteInstrArgs_args (nv : String → Option Nat)
    (canon : Nat → Option String) (instr o : Instruction)
    (h : rewriteInstrArgs nv canon instr = some o) :
    ∀ a ∈ o.args, ∃ m, canon m = some a := by
  unfold rewriteInstrArgs at h
  cases hm : instr.args.mapM (fun arg =>
      match nv arg with
      | some n => canon n
      | none => none) with
  | none => rw [hm] at h; cases h
  | some newArgs =>
    rw [hm] at h
    cases h
    intro a ha
    rcases mapM_mem_option _ _ _ hm a ha with ⟨x, hx, hgx⟩
    cases hnv : nv x with
    | none =>
      rw [hnv] at hgx
      cases hgx
    | some mnum =>
      rw [hnv] at hgx
      exact ⟨mnum, hgx⟩

/-- Full inversion of one pass-3 step: either the instruction is dropped
(its number was no longer in the used set, and apart from the rebuilt
variable map nothing changes), or an instruction is emitted whose
destination is the processed instruction's and whose arguments all come
from the canonical-name map after the step. -/
theorem pass3Step_inv (st st' : Pass3State) (p : Option Nat × Instruction)
    (h : pass3Step st p = some st') :
    (∃ n, p.1 = some n ∧ st.used.contains n = false ∧
      st'.new_instrs = st.new_instrs ∧
      st'.number_to_canonical_dest = st.number_to_canonical_dest ∧
      st'.used = st.used) ∨
    ∃ o, st'.new_instrs = st.new_instrs ++ [o] ∧ o.dest = p.2.dest ∧
      (∀ a ∈ o.args, ∃ m, st'.number_to_canonical_dest m = some a) ∧
      ((p.1 = none ∧
        st'.number_to_canonical_dest = st.number_to_canonical_dest ∧
        st'.used = st.used) ∨
       (∃ n dd, p.1 = some n ∧ st.used.contains n = true ∧
        p.2.dest = some dd ∧
        st'.number_to_canonical_dest = (fun m =>
          if m = n then some dd else st.number_to_canonical_dest m) ∧
        st'.used = st.used.erase n)) := by
  unfold pass3Step at h
  cases hp1 : p.1 with
  | none =>
    simp only [hp1] at h
    cases hrw : rewriteInstrArgs st.new_variable_to_number
        st.number_to_canonical_dest p.2 with
    | none => rw [hrw] at h; cases h
    | some newInstr =>
      rw [hrw] at h
      cases h
      refine Or.inr ⟨newInstr, rfl, (rewriteInstrArgs_shape _ _ _ _ hrw).2.1,
        ?_, Or.inl ⟨rfl, rfl, rfl⟩⟩
      exact rewriteInstrArgs_args _ _ _ _ hrw
  | some number =>
    simp only [hp1] at h
    cases hdest : p.2.dest with
    | none =>
      simp only [hdest] at h
      cases h
    | some dest =>
      simp only [hdest] at h
      by_cases hcont : st.used.contains number = true
      · rw [if_pos hcont] at h
        cases hrw : rewriteInstrArgs
            (fun v => if v = dest then some number
              else st.new_variable_to_number v)
            (fun n => if n = number then some dest
              else st.number_to_canonical_dest n) p.2 with
        | none => rw [hrw] at h; cases h
        | some newInstr =>
          rw [hrw] at h
          cases h
          refine Or.inr ⟨newInstr, rfl, by
            rw [(rewriteInstrArgs_shape _ _ _ _ hrw).2.1, hdest], ?_,
            Or.inr ⟨number, dest, rfl, hcont, rfl, rfl, rfl⟩⟩
          exact rewriteInstrArgs_args _ _ _ _ hrw
      · rw [if_neg hcont] at h
        cases h
        exact Or.inl ⟨number, rfl, Bool.of_not_eq_true hcont, rfl, rfl, rfl⟩

/-- The used set only shrinks along the pass-3 fold. -/
theorem pass3_fold_used_subset :
    ∀ (L : List (Option Nat × Instruction)) (st st' : Pass3State),
      L.foldlM pass3Step st = some st' → ∀ x ∈ st'.used, x ∈ st.used := by
  intro L
  induction L with
  | nil =>
    intro st st' h x hx
    have h2 : some st = some st' := h
    cases h2
    exact hx
  | cons p L ih =>
    intro st st' h x hx
    rw [List.foldlM_cons] at h
    cases hstep : pass3Step st p with
    | none => rw [hstep] at h; cases h
    | some st1 =>
      rw [hstep] at h
      have h' : L.foldlM pass3Step st1 = some st' := h
      have hx1 : x ∈ st1.used := ih st1 st' h' x hx
      rcases pass3Step_inv st st1 p hstep with
        ⟨n, _, _, _, _, hu⟩ | ⟨o, _, _, _, ⟨_, _, hu⟩ | ⟨n, dd, _, _, _, _, hu⟩⟩
      · rwa [hu] at hx1
      · rwa [hu] at hx1
      · rw [hu] at hx1
        exact List.erase_subset _ _ hx1

/-- The used set stays duplicate-free along the pass-3 fold. -/
theorem pass3_fold_used_nodup :
    ∀ (L : List (Option Nat × Instruction)) (st st' : Pass3State),
      L.foldlM pass3Step st = some st' → st.used.Nodup →
      st'.used.Nodup := by
  intro L
  induction L with
  | nil =>
    intro st st' h hn
    have h2 : some st = some st' := h
    cases h2
    exact hn
  | cons p L ih =>
    intro st st' h hn
    rw [List.foldlM_cons] at h
    cases hstep : pass3Step st p with
    | none => rw [hstep] at h; cases h
    | some st1 =>
      rw [hstep] at h
      have h' : L.foldlM pass3Step st1 = some st' := h
      refine ih st1 st' h' ?_
      rcases pass3Step_inv st st1 p hstep with
        ⟨n, _, _, _, _, hu⟩ | ⟨o, _, _, _, ⟨_, _, hu⟩ | ⟨n, dd, _, _, _, _, hu⟩⟩
      · rwa [hu]
      · rwa [hu]
      · rw [hu]
        exact hn.erase n

/-- Once a pair carrying value number `n` has been processed, `n` is no
longer in the used set: a kept producer removes it, a dropped one found it
already absent. -/
theorem pass3_fold_pair_not_used :
    ∀ (L : List (Option Nat × Instruction)) (st st' : Pass3State)
      (n : Nat) (ins : Instruction),
      L.foldlM pass3Step st = some st' → (some n, ins) ∈ L →
      st.used.Nodup → n ∉ st'.used := by
  intro L
  induction L with
  | nil =>
    intro st st' n ins h hmem
    simp at hmem
  | cons p L ih =>
    intro st st' n ins h hmem hn
    rw [List.foldlM_cons] at h
    cases hstep : pass3Step st p with
    | none => rw [hstep] at h; cases h
    | some st1 =>
      rw [hstep] at h
      have h' : L.foldlM pass3Step st1 = some st' := h
      rcases List.mem_cons.mp hmem with heq | htail
      · -- the head pair is the producer of n
        have hp1n : p.1 = some n := by rw [← heq]
        have hnotin1 : n ∉ st1.used := by
          rcases pass3Step_inv st st1 p hstep with
            ⟨n2, hn2, hc, _, _, hu⟩ |
            ⟨o, _, _, _, ⟨hp1, _, hu⟩ | ⟨n2, dd, hn2, hc, _, _, hu⟩⟩
          · rw [hp1n] at hn2
            cases hn2
            rw [hu]
            intro hmem'
            rw [(contains_true_iff_mem st.used n).mpr hmem'] at hc
            cases hc
          · rw [hp1n] at hp1
            cases hp1
          · rw [hp1n] at hn2
            cases hn2
            rw [hu]
            intro hmem'
            exact absurd rfl (hn.mem_erase_iff.mp hmem').1
        intro hmem'
        exact hnotin1 (pass3_fold_used_subset L st1 st' h' n hmem')
      · -- the producer lies further on
        have hn1 : st1.used.Nodup := by
          rcases pass3Step_inv st st1 p hstep with
            ⟨n2, _, _, _, _, hu⟩ |
            ⟨o, _, _, _, ⟨_, _, hu⟩ | ⟨n2, dd, _, _, _, _, hu⟩⟩
          · rwa [hu]
          · rwa [hu]
          · rw [hu]
            exact hn.erase n2
        exact ih st1 st' n ins h' htail hn1

/-- Inserting into a set-as-list preserves freedom from duplicates. -/
theorem addIfAbsent_nodup (u : List Nat) (n : Nat) (h : u.Nodup) :
    (addIfAbsent u n).Nodup := by
  unfold addIfAbsent
  by_cases hc : u.contains n = true
  · rw [if_pos hc]
    exact h
  · rw [if_neg hc]
    have hnm : n ∉ u := fun hm => hc ((contains_true_iff_mem u n).mpr hm)
    refine List.Nodup.append h (by simp) ?_
    intro a ha hb
    simp only [List.mem_singleton] at hb
    subst hb
    exact hnm ha

/-- Folding `addIfAbsent` preserves freedom from duplicates. -/
theorem foldl_addIfAbsent_nodup :
    ∀ (ns : List Nat) (u : List Nat), u.Nodup →
      (ns.foldl addIfAbsent u).Nodup := by
  intro ns
  induction ns with
  | nil => intro u h; exact h
  | cons n ns ih =>
    intro u h
    rw [List.foldl_cons]
    exact ih _ (addIfAbsent_nodup u n h)

/-- A pass-1 step keeps the used set duplicate-free. -/
theorem pass1Step_used_nodup (st st' : Pass1State) (instr : Instruction)
    (h : pass1Step st instr = some st') (hn : st.used_numbers.Nodup) :
    st'.used_numbers.Nodup := by
  unfold pass1Step at h
  cases hdest : instr.dest with
  | none =>
    simp only [hdest] at h
    cases hop : instr.op with
    | none => simp only [hop] at h; cases h; exact hn
    | some op =>
      simp only [hop] at h
      cases hmm : instr.args.mapM st.variable_to_number with
      | none => simp only [hmm] at h; cases h
      | some nums =>
        simp only [hmm] at h
        cases h
        exact foldl_addIfAbsent_nodup nums st.used_numbers hn
  | some dest =>
    simp only [hdest] at h
    cases hre : resolvedExpression st instr with
    | none => simp only [hre] at h; cases h
    | some expression =>
      simp only [hre] at h
      cases hlook : st.expression_to_number expression with
      | some number => simp only [hlook] at h; cases h; exact hn
      | none => simp only [hlook] at h; cases h; exact hn

/-- The pass-1 fold keeps the used set duplicate-free. -/
theorem pass1_fold_used_nodup :
    ∀ (l : List Instruction) (st st' : Pass1State),
      l.foldlM pass1Step st = some st' → st.used_numbers.Nodup →
      st'.used_numbers.Nodup := by
  intro l
  induction l with
  | nil =>
    intro st st' h hn
    have h2 : some st = some st' := h
    cases h2
    exact hn
  | cons a l ih =>
    intro st st' h hn
    rw [List.foldlM_cons] at h
    cases hstep : pass1Step st a with
    | none => rw [hstep] at h; cases h
    | some st1 =>
      rw [hstep] at h
      exact ih st1 st' h (pass1Step_used_nodup st st1 a hstep hn)

/-- One closure round preserves freedom from duplicates. -/
theorem expandUsed_nodup (n2e : Nat → Option Expression) (used : List Nat)
    (h : used.Nodup) : (expandUsed n2e used).Nodup := by
  unfold expandUsed
  have haux : ∀ (l : List Nat) (acc : List Nat), acc.Nodup →
      (l.foldl (fun acc n =>
        match n2e n with
        | some e => (exprArgs e).foldl addIfAbsent acc
        | none => acc) acc).Nodup := by
    intro l
    induction l with
    | nil => intro acc hacc; exact hacc
    | cons n l ih =>
      intro acc hacc
      rw [List.foldl_cons]
      apply ih
      cases he : n2e n with
      | none => simpa [he] using hacc
      | some e =>
        simp only [he]
        exact foldl_addIfAbsent_nodup _ _ hacc
  exact haux used used h

/-- The liveness closure preserves freedom from duplicates. -/
theorem closeUsed_nodup (n2e : Nat → Option Expression) :
    ∀ (fuel : Nat) (used : List Nat), used.Nodup →
      (closeUsed n2e used fuel).Nodup := by
  intro fuel
  induction fuel with
  | zero => intro used h; exact h
  | succ fuel ih => intro used h; exact ih _ (expandUsed_nodup n2e used h)

/-- Positions with the same `some` value under a duplicate-free `filterMap`
coincide. -/
theorem filterMap_nodup_unique {α β : Type} (f : α → Option β) :
    ∀ (l : List α) (i j : Nat) (x y : α) (d : β),
      (l.filterMap f).Nodup → l.get? i = some x → l.get? j = some y →
      f x = some d → f y = some d → i = j := by
  intro l
  induction l with
  | nil =>
    intro i j x y d hn h1
    simp at h1
  | cons a l ih =>
    intro i j x y d hn h1 h2 hfx hfy
    have hn' : (l.filterMap f).Nodup := by
      cases hfa : f a with
      | none => simpa [List.filterMap_cons, hfa] using hn
      | some d' =>
        have h3 := hn
        simp only [List.filterMap_cons, hfa] at h3
        exact (List.nodup_cons.mp h3).2
    cases i with
    | zero =>
      cases j with
      | zero => rfl
      | succ j =>
        simp only [List.get?_cons_zero, Option.some.injEq] at h1
        subst h1
        simp only [List.get?_cons_succ] at h2
        have hmem : d ∈ l.filterMap f :=
          List.mem_filterMap.mpr ⟨y, List.get?_mem h2, hfy⟩
        have h3 := hn
        simp only [List.filterMap_cons, hfx] at h3
        exact absurd hmem (List.nodup_cons.mp h3).1
    | succ i =>
      cases j with
      | zero =>
        simp only [List.get?_cons_zero, Option.some.injEq] at h2
        subst h2
        simp only [List.get?_cons_succ] at h1
        have hmem : d ∈ l.filterMap f :=
          List.mem_filterMap.mpr ⟨x, List.get?_mem h1, hfx⟩
        have h3 := hn
        simp only [List.filterMap_cons, hfy] at h3
        exact absurd hmem (List.nodup_cons.mp h3).1
      | succ j =>
        simp only [List.get?_cons_succ] at h1 h2
        have := ih i j x y d hn' h1 h2 hfx hfy
        omega

/-- Positionwise characterization of `zip`. -/
theorem zip_get?_some {α β : Type} :
    ∀ (l1 : List α) (l2 : List β) (k : Nat) (x : α) (y : β),
      l1.get? k = some x → l2.get? k = some y →
      (l1.zip l2).get? k = some (x, y) := by
  intro l1
  induction l1 with
  | nil =>
    intro l2 k x y h1 h2
    simp at h1
  | cons a l1 ih =>
    intro l2 k x y h1 h2
    cases l2 with
    | nil => simp at h2
    | cons b l2 =>
      cases k with
      | zero =>
        simp only [List.get?_cons_zero, Option.some.injEq] at h1 h2
        subst h1
        subst h2
        rfl
      | succ k =>
        simp only [List.get?_cons_succ] at h1 h2
        show (l1.zip l2).get? k = some (x, y)
        exact ih l2 k x y h1 h2

/-- Positions of a `zip` project to positions of the two lists. -/
theorem zip_get?_inv {α β : Type} :
    ∀ (l1 : List α) (l2 : List β) (k : Nat) (q : α × β),
      (l1.zip l2).get? k = some q →
      l1.get? k = some q.1 ∧ l2.get? k = some q.2 := by
  intro l1
  induction l1 with
  | nil =>
    intro l2 k q h
    simp [List.zip] at h
  | cons a l1 ih =>
    intro l2 k q h
    cases l2 with
    | nil => simp [List.zip] at h
    | cons b l2 =>
      cases k with
      | zero =>
        have h2 : some (a, b) = some q := h
        cases h2
        exact ⟨rfl, rfl⟩
      | succ k =>
        have h2 : (l1.zip l2).get? k = some q := h
        exact ih l2 k q h2

/-- The pass-3 fold never emits the name `d` as a destination or an
argument, provided no processed instruction has destination `d`, nothing
already emitted mentions `d`, and no canonical name is `d`. -/
theorem pass3_fold_clean (d : String) :
    ∀ (L : List (Option Nat × Instruction)) (st st' : Pass3State),
      L.foldlM pass3Step st = some st' →
      (∀ o ∈ st.new_instrs, o.dest ≠ some d ∧ d ∉ o.args) →
      (∀ m, st.number_to_canonical_dest m ≠ some d) →
      (∀ p ∈ L, p.2.dest ≠ some d) →
      (∀ o ∈ st'.new_instrs, o.dest ≠ some d ∧ d ∉ o.args) ∧
      (∀ m, st'.number_to_canonical_dest m ≠ some d) := by
  intro L
  induction L with
  | nil =>
    intro st st' h h1 h2 h3
    have heq : some st = some st' := h
    cases heq
    exact ⟨h1, h2⟩
  | cons p L ih =>
    intro st st' h h1 h2 h3
    rw [List.foldlM_cons] at h
    cases hstep : pass3Step st p with
    | none => rw [hstep] at h; cases h
    | some st1 =>
      rw [hstep] at h
      have h' : L.foldlM pass3Step st1 = some st' := h
      have hpd : p.2.dest ≠ some d := h3 p (by simp)
      have hnext : (∀ o ∈ st1.new_instrs, o.dest ≠ some d ∧ d ∉ o.args) ∧
          (∀ m, st1.number_to_canonical_dest m ≠ some d) := by
        rcases pass3Step_inv st st1 p hstep with
          ⟨n, _, _, hni, hcanon, _⟩ |
          ⟨o, hni, hod, hargs, ⟨_, hcanon, _⟩ | ⟨n, dd, _, _, hpdd, hcanon, _⟩⟩
        · rw [hni, hcanon]
          exact ⟨h1, h2⟩
        · constructor
          · intro o2 ho2
            rw [hni] at ho2
            rcases List.mem_append.mp ho2 with hin | hin
            · exact h1 o2 hin
            · simp only [List.mem_singleton] at hin
              subst hin
              refine ⟨by rw [hod]; exact hpd, ?_⟩
              intro hda
              rcases hargs d hda with ⟨m, hm⟩
              rw [hcanon] at hm
              exact h2 m hm
          · rw [hcanon]
            exact h2
        · constructor
          · intro o2 ho2
            rw [hni] at ho2
            rcases List.mem_append.mp ho2 with hin | hin
            · exact h1 o2 hin
            · simp only [List.mem_singleton] at hin
              subst hin
              refine ⟨by rw [hod]; exact hpd, ?_⟩
              intro hda
              rcases hargs d hda with ⟨m, hm⟩
              simp only [hcanon] at hm
              by_cases hmn : m = n
              · rw [if_pos hmn] at hm
                apply hpd
                rw [hpdd]
                rw [Option.some.inj hm]
              · rw [if_neg hmn] at hm
                exact h2 m hm
          · intro m
            simp only [hcanon]
            by_cases hmn : m = n
            · rw [if_pos hmn]
              intro hc
              apply hpd
              rw [hpdd]
              rw [Option.some.inj hc]
            · rw [if_neg hmn]
              exact h2 m
      exact ih st1 st' h' hnext.1 hnext.2 (fun q hq => h3 q (by simp [hq]))

/-- When a later instruction shares its value number with an earlier one
and no destination name repeats in the block, the later duplicate's
destination name appears in the output neither as a destination nor as an
argument. -/
theorem pass3_prune (block out : Block) (st : Pass1State)
    (hp : pass1 block.instrs = some st)
    (hrun : run_local_value_numbering block = some out)
    (hnd : (block.instrs.filterMap Instruction.dest).Nodup)
    (i j n : Nat) (bj : Instruction) (d : String)
    (hij : i < j)
    (hni : st.instruction_numbers.get? i = some (some n))
    (hnj : st.instruction_numbers.get? j = some (some n))
    (hbj : block.instrs.get? j = some bj)
    (hdj : bj.dest = some d) :
    ∀ o ∈ out.instrs, o.dest ≠ some d ∧ d ∉ o.args := by
  unfold run_local_value_numbering at hrun
  simp only [hp] at hrun
  cases h3 : pass3 block.instrs st.instruction_numbers
      (closeUsed st.number_to_expression st.used_numbers st.next_number) with
  | none =>
    simp only [h3] at hrun
    cases hrun
  | some st3 =>
    simp only [h3] at hrun
    cases hrun
    unfold pass3 at h3
    have hj_len : j < block.instrs.length := by
      rcases List.get?_eq_some.mp hbj with ⟨hlt, _⟩
      exact hlt
    have hi_len : i < block.instrs.length := lt_trans hij hj_len
    cases hai : block.instrs.get? i with
    | none =>
      rw [List.get?_eq_none] at hai
      omega
    | some ai =>
      have hpair_j : (st.instruction_numbers.zip block.instrs).get? j
          = some (some n, bj) := zip_get?_some _ _ _ _ _ hnj hbj
      have hpair_i : (st.instruction_numbers.zip block.instrs).get? i
          = some (some n, ai) := zip_get?_some _ _ _ _ _ hni hai
      have huniq : ∀ k ak, block.instrs.get? k = some ak →
          ak.dest = some d → k = j := by
        intro k ak hk hdk
        exact filterMap_nodup_unique Instruction.dest block.instrs k j ak bj
          d hnd hk hbj hdk hdj
      have hnodup0 : (closeUsed st.number_to_expression st.used_numbers
          st.next_number).Nodup := by
        apply closeUsed_nodup
        have h0 := hp
        unfold pass1 at h0
        exact pass1_fold_used_nodup _ _ _ h0 (by simp [initialPass1State])
      have hsplitL : (st.instruction_numbers.zip block.instrs)
          = (st.instruction_numbers.zip block.instrs).take j
            ++ (st.instruction_numbers.zip block.instrs).drop j :=
        (List.take_append_drop _ _).symm
      rw [hsplitL] at h3
      rcases foldlM_option_prefix _ _ _ _ _ h3 with ⟨stj, hstj, hrest⟩
      have hdropL : (st.instruction_numbers.zip block.instrs).drop j
          = (some n, bj)
            :: (st.instruction_numbers.zip block.instrs).drop (j + 1) := by
        rcases List.get?_eq_some.mp hpair_j with ⟨hlt, hget⟩
        rw [List.drop_eq_get_cons hlt, hget]
      rw [hdropL, List.foldlM_cons] at hrest
      cases hstep : pass3Step stj (some n, bj) with
      | none => rw [hstep] at hrest; cases hrest
      | some stj1 =>
        rw [hstep] at hrest
        have hrest' : ((st.instruction_numbers.zip block.instrs).drop
            (j + 1)).foldlM pass3Step stj1 = some st3 := hrest
        have hnotj : n ∉ stj.used := by
          have hpair_i_take :
              ((st.instruction_numbers.zip block.instrs).take j).get? i
                = some (some n, ai) := by
            rw [List.get?_take hij]
            exact hpair_i
          exact pass3_fold_pair_not_used _ _ _ n ai hstj
            (List.get?_mem hpair_i_take) hnodup0
        have hclean_j :
            (∀ o ∈ stj.new_instrs, o.dest ≠ some d ∧ d ∉ o.args) ∧
            (∀ m, stj.number_to_canonical_dest m ≠ some d) := by
          refine pass3_fold_clean d _ _ _ hstj ?_ ?_ ?_
          · intro o ho
            simp [initialPass3State] at ho
          · intro m
            simp [initialPass3State]
          · intro p hpmem
            rcases List.mem_iff_get?.mp hpmem with ⟨k, hk⟩
            have hk_lt : k < j := by
              by_contra hk_ge
              push_neg at hk_ge
              have hlen_take :
                  ((st.instruction_numbers.zip block.instrs).take j).length
                    ≤ j := by
                rw [List.length_take]
                omega
              rw [List.get?_eq_none.mpr (by omega)] at hk
              cases hk
            have hkL : (st.instruction_numbers.zip block.instrs).get? k
                = some p := by
              rw [← List.get?_take hk_lt]
              exact hk
            have hinstr := (zip_get?_inv _ _ _ _ hkL).2
            intro hdk
            have := huniq k p.2 hinstr hdk
            omega
        have hstj1 : stj1.new_instrs = stj.new_instrs ∧
            stj1.number_to_canonical_dest
              = stj.number_to_canonical_dest := by
          rcases pass3Step_inv stj stj1 (some n, bj) hstep with
            ⟨n2, hn2, _, hni2, hcanon2, _⟩ |
            ⟨o, _, _, _, ⟨hp1, _, _⟩ | ⟨n2, dd, hn2, hc, _, _, _⟩⟩
          · exact ⟨hni2, hcanon2⟩
          · cases hp1
          · have heq2 : n = n2 := Option.some.inj hn2
            subst heq2
            exact absurd ((contains_true_iff_mem _ _).mp hc) hnotj
        have hclean_end :
            (∀ o ∈ st3.new_instrs, o.dest ≠ some d ∧ d ∉ o.args) ∧
            (∀ m, st3.number_to_canonical_dest m ≠ some d) := by
          refine pass3_fold_clean d _ _ _ hrest' ?_ ?_ ?_
          · rw [hstj1.1]
            exact hclean_j.1
          · rw [hstj1.2]
            exact hclean_j.2
          · intro p hpmem
            rcases List.mem_iff_get?.mp hpmem with ⟨k, hk⟩
            rw [List.get?_drop] at hk
            have hinstr := (zip_get?_inv _ _ _ _ hk).2
            intro hdk
            have := huniq (j + 1 + k) p.2 hinstr hdk
            omega
        intro o ho
        exact hclean_end.1 o ho

/-- A successful `mapM` over `Option` maps each input position to an output
position through the function. -/
theorem mapM_get?_forward_option {α β : Type} (g : α → Option β) :
    ∀ (L : List α) (L' : List β), L.mapM g = some L' →
      ∀ k x, L.get? k = some x → ∃ v, g x = some v ∧ L'.get? k = some v := by
  intro L
  induction L with
  | nil =>
    intro L' h k x hk
    simp at hk
  | cons a L ih =>
    intro L' h k x hk
    rw [List.mapM_cons] at h
    cases hga : g a with
    | none => rw [hga] at h; cases h
    | some b =>
      rw [hga] at h
      cases hrest : L.mapM g with
      | none => rw [hrest] at h; cases h
      | some bs =>
        rw [hrest] at h
        have h2 : some (b :: bs) = some L' := h
        cases h2
        cases k with
        | zero =>
          simp only [List.get?_cons_zero, Option.some.injEq] at hk
          subst hk
          exact ⟨b, hga, rfl⟩
        | succ k =>
          simp only [List.get?_cons_succ] at hk
          rcases ih bs hrest k x hk with ⟨v, hv1, hv2⟩
          exact ⟨v, hv1, by simpa using hv2⟩

/-- The argument rewrite is positional: the argument at position `t` is
replaced by the canonical destination of its resolved value number. -/
theorem rewriteInstrArgs_get? (nv : String → Option Nat)
    (canon : Nat → Option String) (instr o : Instruction)
    (h : rewriteInstrArgs nv canon instr = some o) :
    ∀ t a, instr.args.get? t = some a →
      ∃ v, (nv a).bind canon = some v ∧ o.args.get? t = some v := by
  unfold rewriteInstrArgs at h
  cases hm : instr.args.mapM (fun arg =>
      match nv arg with
      | some m => canon m
      | none => none) with
  | none => rw [hm] at h; cases h
  | some newArgs =>
    rw [hm] at h
    cases h
    intro t a ha
    rcases mapM_get?_forward_option _ _ _ hm t a ha with ⟨v, hv1, hv2⟩
    refine ⟨v, ?_, hv2⟩
    cases hnv : nv a with
    | none =>
      rw [hnv] at hv1
      cases hv1
    | some m =>
      rw [hnv] at hv1
      exact hv1

/-- Complete inversion of one pass-3 step, exposing the exact successor
state: an unnumbered instruction is emitted through the current maps; a
numbered one whose number is no longer used only records its destination in
the rebuilt variable map; a numbered one whose number is still used is
emitted through the updated maps, becomes the canonical producer of its
number, and removes it from the used set. -/
theorem pass3Step_cases (st st' : Pass3State) (p : Option Nat × Instruction)
    (h : pass3Step st p = some st') :
    (p.1 = none ∧ ∃ o,
      rewriteInstrArgs st.new_variable_to_number st.number_to_canonical_dest
        p.2 = some o ∧
      st' = { st with new_instrs := st.new_instrs ++ [o] }) ∨
    (∃ n2 dd, p.1 = some n2 ∧ p.2.dest = some dd ∧
      st.used.contains n2 = false ∧
      st' = { st with new_variable_to_number := fun v =>
        if v = dd then some n2 else st.new_variable_to_number v }) ∨
    (∃ n2 dd o, p.1 = some n2 ∧ p.2.dest = some dd ∧
      st.used.contains n2 = true ∧
      rewriteInstrArgs
        (fun v => if v = dd then some n2 else st.new_variable_to_number v)
        (fun m => if m = n2 then some dd else st.number_to_canonical_dest m)
        p.2 = some o ∧
      st' = { new_instrs := st.new_instrs ++ [o],
              number_to_canonical_dest := fun m =>
                if m = n2 then some dd else st.number_to_canonical_dest m,
              new_variable_to_number := fun v =>
                if v = dd then some n2 else st.new_variable_to_number v,
              used := st.used.erase n2 }) := by
  unfold pass3Step at h
  cases hp1 : p.1 with
  | none =>
    simp only [hp1] at h
    cases hrw : rewriteInstrArgs st.new_variable_to_number
        st.number_to_canonical_dest p.2 with
    | none => rw [hrw] at h; cases h
    | some newInstr =>
      rw [hrw] at h
      cases h
      exact Or.inl ⟨rfl, newInstr, rfl, rfl⟩
  | some number =>
    simp only [hp1] at h
    cases hdest : p.2.dest with
    | none =>
      simp only [hdest] at h
      cases h
    | some dest =>
      simp only [hdest] at h
      by_cases hcont : st.used.contains number = true
      · rw [if_pos hcont] at h
        cases hrw : rewriteInstrArgs
            (fun v => if v = dest then some number
              else st.new_variable_to_number v)
            (fun m => if m = number then some dest
              else st.number_to_canonical_dest m) p.2 with
        | none => rw [hrw] at h; cases h
        | some newInstr =>
          rw [hrw] at h
          cases h
          exact Or.inr (Or.inr ⟨number, dest, newInstr, rfl, rfl, hcont,
            hrw, rfl⟩)
      · rw [if_neg hcont] at h
        cases h
        exact Or.inr (Or.inl ⟨number, dest, rfl, rfl,
          Bool.of_not_eq_true hcont, rfl⟩)

/-- Updating the rebuilt variable map at a destination that, when it equals
the tracked name, carries the tracked number, preserves the name-to-number
invariant. -/
theorem nvUpdate_inv (a dd : String) (n n2 : Nat)
    (nv : String → Option Nat)
    (hinv : nv a = none ∨ nv a = some n)
    (himp : a = dd → n2 = n) :
    ((fun v => if v = dd then some n2 else nv v) a = none ∨
     (fun v => if v = dd then some n2 else nv v) a = some n) := by
  by_cases hadd : a = dd
  · right
    simp only [if_pos hadd]
    rw [himp hadd]
  · rcases hinv with hx | hx
    · left
      simpa [hadd] using hx
    · right
      simpa [hadd] using hx

/-- Fold invariant for reference rewriting: when every processed definition
of the names `a1`, `a2` carries the fixed value number `n`, no processed
pair can be a kept producer of `n` (its number is never a still-used `n`),
and `n`'s canonical entry is `copt`, then the rebuilt variable map keeps
`a1`, `a2` bound (if at all) to `n`, the canonical entry of `n` stays
`copt`, and every newly emitted instruction comes from a processed pair
whose references to `a1` or `a2` are rewritten, at the same argument
position, to the canonical name stored in `copt`. -/
theorem pass3_fold_canon_ref (a1 a2 : String) (n : Nat)
    (copt : Option String) :
    ∀ (L : List (Option Nat × Instruction)) (st st' : Pass3State),
      L.foldlM pass3Step st = some st' →
      (st.new_variable_to_number a1 = none ∨
        st.new_variable_to_number a1 = some n) →
      (st.new_variable_to_number a2 = none ∨
        st.new_variable_to_number a2 = some n) →
      st.number_to_canonical_dest n = copt →
      (n ∉ st.used ∨ ∀ p ∈ L, p.1 ≠ some n) →
      (∀ p ∈ L, p.2.dest = some a1 → p.1 = some n) →
      (∀ p ∈ L, p.2.dest = some a2 → p.1 = some n) →
      ((st'.new_variable_to_number a1 = none ∨
          st'.new_variable_to_number a1 = some n) ∧
        (st'.new_variable_to_number a2 = none ∨
          st'.new_variable_to_number a2 = some n) ∧
        st'.number_to_canonical_dest n = copt) ∧
      ∀ o ∈ st'.new_instrs, o ∈ st.new_instrs ∨
        ∃ p ∈ L, InstrShapeEq o p.2 ∧
          ∀ t, (p.2.args.get? t = some a1 ∨ p.2.args.get? t = some a2) →
            ∃ dv, copt = some dv ∧ o.args.get? t = some dv := by
  intro L
  induction L with
  | nil =>
    intro st st' h h1 h2 h3 hsafe hd1 hd2
    have heq : some st = some st' := h
    cases heq
    exact ⟨⟨h1, h2, h3⟩, fun o ho => Or.inl ho⟩
  | cons p L ih =>
    intro st st' h h1 h2 h3 hsafe hd1 hd2
    rw [List.foldlM_cons] at h
    cases hstep : pass3Step st p with
    | none => rw [hstep] at h; cases h
    | some st1 =>
      rw [hstep] at h
      have h' : L.foldlM pass3Step st1 = some st' := h
      have hd1t : ∀ q ∈ L, q.2.dest = some a1 → q.1 = some n :=
        fun q hq => hd1 q (List.mem_cons_of_mem p hq)
      have hd2t : ∀ q ∈ L, q.2.dest = some a2 → q.1 = some n :=
        fun q hq => hd2 q (List.mem_cons_of_mem p hq)
      rcases pass3Step_cases st st1 p hstep with
        ⟨hp1, o1, hrw, hst1⟩ | ⟨n2, dd, hp1, hdd, hcont, hst1⟩ |
        ⟨n2, dd, o1, hp1, hdd, hcont, hrw, hst1⟩
      · -- an unnumbered instruction, emitted through the unchanged maps
        subst hst1
        have hsafe' : n ∉ st.used ∨ ∀ q ∈ L, q.1 ≠ some n := by
          rcases hsafe with hl | hr
          · exact Or.inl hl
          · exact Or.inr (fun q hq => hr q (List.mem_cons_of_mem p hq))
        rcases ih _ st' h' h1 h2 h3 hsafe' hd1t hd2t with ⟨hinv, hprov⟩
        refine ⟨hinv, ?_⟩
        intro o ho
        rcases hprov o ho with hin | ⟨q, hq, hsh, hqprop⟩
        · rcases List.mem_append.mp hin with hin2 | hin2
          · exact Or.inl hin2
          · simp only [List.mem_singleton] at hin2
            subst hin2
            refine Or.inr ⟨p, List.mem_cons_self p L,
              rewriteInstrArgs_shape _ _ _ _ hrw, ?_⟩
            intro t href
            have ha : ∃ a, p.2.args.get? t = some a ∧ (a = a1 ∨ a = a2) := by
              rcases href with hx | hx
              exacts [⟨a1, hx, Or.inl rfl⟩, ⟨a2, hx, Or.inr rfl⟩]
            rcases ha with ⟨a, hat, haa⟩
            rcases rewriteInstrArgs_get? _ _ _ _ hrw t a hat with
              ⟨v, hv1, hv2⟩
            have hnva : st.new_variable_to_number a = some n := by
              rcases haa with rfl | rfl
              · rcases h1 with hnone | hsome
                · rw [hnone] at hv1; cases hv1
                · exact hsome
              · rcases h2 with hnone | hsome
                · rw [hnone] at hv1; cases hv1
                · exact hsome
            rw [hnva] at hv1
            have hv1' : st.number_to_canonical_dest n = some v := hv1
            rw [h3] at hv1'
            exact ⟨v, hv1', hv2⟩
        · exact Or.inr ⟨q, List.mem_cons_of_mem p hq, hsh, hqprop⟩
      · -- a numbered instruction whose number is no longer used: dropped
        subst hst1
        have himp1 : a1 = dd → n2 = n := by
          intro hadd
          have hdest1 : p.2.dest = some a1 := by rw [hadd]; exact hdd
          have := hd1 p (List.mem_cons_self p L) hdest1
          rw [hp1] at this
          exact Option.some.inj this
        have himp2 : a2 = dd → n2 = n := by
          intro hadd
          have hdest2 : p.2.dest = some a2 := by rw [hadd]; exact hdd
          have := hd2 p (List.mem_cons_self p L) hdest2
          rw [hp1] at this
          exact Option.some.inj this
        have hsafe' : n ∉ st.used ∨ ∀ q ∈ L, q.1 ≠ some n := by
          rcases hsafe with hl | hr
          · exact Or.inl hl
          · exact Or.inr (fun q hq => hr q (List.mem_cons_of_mem p hq))
        rcases ih _ st' h' (nvUpdate_inv a1 dd n n2 _ h1 himp1)
          (nvUpdate_inv a2 dd n n2 _ h2 himp2) h3 hsafe' hd1t hd2t with
          ⟨hinv, hprov⟩
        refine ⟨hinv, ?_⟩
        intro o ho
        rcases hprov o ho with hin | ⟨q, hq, hsh, hqprop⟩
        · exact Or.inl hin
        · exact Or.inr ⟨q, List.mem_cons_of_mem p hq, hsh, hqprop⟩
      · -- a numbered instruction whose number is still used: emitted
        subst hst1
        have hn2n : n2 ≠ n := by
          intro hnn
          subst hnn
          rcases hsafe with hl | hr
          · exact hl ((contains_true_iff_mem _ _).mp hcont)
          · exact hr p (List.mem_cons_self p L) hp1
        have himp1 : a1 = dd → n2 = n := by
          intro hadd
          have hdest1 : p.2.dest = some a1 := by rw [hadd]; exact hdd
          have := hd1 p (List.mem_cons_self p L) hdest1
          rw [hp1] at this
          exact Option.some.inj this
        have himp2 : a2 = dd → n2 = n := by
          intro hadd
          have hdest2 : p.2.dest = some a2 := by rw [hadd]; exact hdd
          have := hd2 p (List.mem_cons_self p L) hdest2
          rw [hp1] at this
          exact Option.some.inj this
        have hcanon1 : (fun m => if m = n2 then some dd
            else st.number_to_canonical_dest m) n = copt := by
          simp only [if_neg (Ne.symm hn2n)]
          exact h3
        have hsafe' : n ∉ st.used.erase n2 ∨ ∀ q ∈ L, q.1 ≠ some n := by
          rcases hsafe with hl | hr
          · exact Or.inl (fun hmem => hl (List.erase_subset _ _ hmem))
          · exact Or.inr (fun q hq => hr q (List.mem_cons_of_mem p hq))
        rcases ih _ st' h' (nvUpdate_inv a1 dd n n2 _ h1 himp1)
          (nvUpdate_inv a2 dd n n2 _ h2 himp2) hcanon1 hsafe' hd1t hd2t with
          ⟨hinv, hprov⟩
        refine ⟨hinv, ?_⟩
        intro o ho
        rcases hprov o ho with hin | ⟨q, hq, hsh, hqprop⟩
        · rcases List.mem_append.mp hin with hin2 | hin2
          · exact Or.inl hin2
          · simp only [List.mem_singleton] at hin2
            subst hin2
            refine Or.inr ⟨p, List.mem_cons_self p L,
              rewriteInstrArgs_shape _ _ _ _ hrw, ?_⟩
            intro t href
            have ha : ∃ a, p.2.args.get? t = some a ∧ (a = a1 ∨ a = a2) := by
              rcases href with hx | hx
              exacts [⟨a1, hx, Or.inl rfl⟩, ⟨a2, hx, Or.inr rfl⟩]
            rcases ha with ⟨a, hat, haa⟩
            rcases rewriteInstrArgs_get? _ _ _ _ hrw t a hat with
              ⟨v, hv1, hv2⟩
            have hup : (if a = dd then some n2
                else st.new_variable_to_number a) = none ∨
                (if a = dd then some n2
                else st.new_variable_to_number a) = some n := by
              rcases haa with rfl | rfl
              · exact nvUpdate_inv _ dd n n2 _ h1 himp1
              · exact nvUpdate_inv _ dd n n2 _ h2 himp2
            have hb : ((if a = dd then some n2
                else st.new_variable_to_number a)).bind
                (fun m => if m = n2 then some dd
                  else st.number_to_canonical_dest m) = some v := hv1
            have hvv : copt = some v := by
              rcases hup with hnone | hsome
              · rw [hnone] at hb
                cases hb
              · rw [hsome] at hb
                have hb2 : (fun m => if m = n2 then some dd
                    else st.number_to_canonical_dest m) n = some v := hb
                exact hcanon1.symm.trans hb2
            exact ⟨v, hvv, hv2⟩
        · exact Or.inr ⟨q, List.mem_cons_of_mem p hq, hsh, hqprop⟩

/-- When no destination name repeats in the block, every kept reference to
the destination of either of two instructions sharing a value number is
rewritten to the destination of the first producer of that number, the
surviving producer: every output instruction is a clone of an input
instruction whose argument occurrences of either name became the
survivor's name, position by position. -/
theorem pass3_rewrite_survivor (block out : Block) (st : Pass1State)
    (hp : pass1 block.instrs = some st)
    (hrun : run_local_value_numbering block = some out)
    (hnd : (block.instrs.filterMap Instruction.dest).Nodup)
    (i j n : Nat) (bi bj : Instruction) (d0 dj : String)
    (hij : i < j)
    (hfirst : ∀ k, k < i → st.instruction_numbers.get? k ≠ some (some n))
    (hni : st.instruction_numbers.get? i = some (some n))
    (hnj : st.instruction_numbers.get? j = some (some n))
    (hbi : block.instrs.get? i = some bi)
    (hd0 : bi.dest = some d0)
    (hbj : block.instrs.get? j = some bj)
    (hdj : bj.dest = some dj) :
    ∀ o ∈ out.instrs, ∃ ins ∈ block.instrs, InstrShapeEq o ins ∧
      ∀ t, (ins.args.get? t = some d0 ∨ ins.args.get? t = some dj) →
        o.args.get? t = some d0 := by
  unfold run_local_value_numbering at hrun
  simp only [hp] at hrun
  cases h3 : pass3 block.instrs st.instruction_numbers
      (closeUsed st.number_to_expression st.used_numbers st.next_number) with
  | none =>
    simp only [h3] at hrun
    cases hrun
  | some st3 =>
    simp only [h3] at hrun
    cases hrun
    unfold pass3 at h3
    have hj_len : j < block.instrs.length := by
      rcases List.get?_eq_some.mp hbj with ⟨hlt, _⟩
      exact hlt
    have hi_len : i < block.instrs.length := lt_trans hij hj_len
    have hpair_i : (st.instruction_numbers.zip block.instrs).get? i
        = some (some n, bi) := zip_get?_some _ _ _ _ _ hni hbi
    have huniq_d0 : ∀ k ak, block.instrs.get? k = some ak →
        ak.dest = some d0 → k = i := fun k ak hk hdk =>
      filterMap_nodup_unique Instruction.dest block.instrs k i ak bi d0
        hnd hk hbi hdk hd0
    have huniq_dj : ∀ k ak, block.instrs.get? k = some ak →
        ak.dest = some dj → k = j := fun k ak hk hdk =>
      filterMap_nodup_unique Instruction.dest block.instrs k j ak bj dj
        hnd hk hbj hdk hdj
    have hne : dj ≠ d0 := by
      intro he
      have := huniq_d0 j bj hbj (by rw [← he]; exact hdj)
      omega
    have hnodup0 : (closeUsed st.number_to_expression st.used_numbers
        st.next_number).Nodup := by
      apply closeUsed_nodup
      have h0 := hp
      unfold pass1 at h0
      exact pass1_fold_used_nodup _ _ _ h0 (by simp [initialPass1State])
    have hsplitL : (st.instruction_numbers.zip block.instrs)
        = (st.instruction_numbers.zip block.instrs).take i
          ++ (st.instruction_numbers.zip block.instrs).drop i :=
      (List.take_append_drop _ _).symm
    rw [hsplitL] at h3
    rcases foldlM_option_prefix _ _ _ _ _ h3 with ⟨sti, hsti, hrest⟩
    have hdropL : (st.instruction_numbers.zip block.instrs).drop i
        = (some n, bi)
          :: (st.instruction_numbers.zip block.instrs).drop (i + 1) := by
      rcases List.get?_eq_some.mp hpair_i with ⟨hlt, hget⟩
      rw [List.drop_eq_get_cons hlt, hget]
    rw [hdropL, List.foldlM_cons] at hrest
    cases hstep : pass3Step sti (some n, bi) with
    | none => rw [hstep] at hrest; cases hrest
    | some sti1 =>
      rw [hstep] at hrest
      have hrest' : ((st.instruction_numbers.zip block.instrs).drop
          (i + 1)).foldlM pass3Step sti1 = some st3 := hrest
      -- positions inside the prefix
      have hposition : ∀ (p : Option Nat × Instruction) (k : Nat),
          ((st.instruction_numbers.zip block.instrs).take i).get? k
            = some p →
          k < i ∧ st.instruction_numbers.get? k = some p.1 ∧
            block.instrs.get? k = some p.2 := by
        intro p k hk
        have hk_lt : k < i := by
          by_contra hk_ge
          push_neg at hk_ge
          have hlen_take : ((st.instruction_numbers.zip
              block.instrs).take i).length ≤ i := by
            rw [List.length_take]
            omega
          rw [List.get?_eq_none.mpr (by omega)] at hk
          cases hk
        have hkL : (st.instruction_numbers.zip block.instrs).get? k
            = some p := by
          rw [← List.get?_take hk_lt]
          exact hk
        exact ⟨hk_lt, (zip_get?_inv _ _ _ _ hkL).1,
          (zip_get?_inv _ _ _ _ hkL).2⟩
      have hprefnum : ∀ p ∈ (st.instruction_numbers.zip
          block.instrs).take i, p.1 ≠ some n := by
        intro p hpmem hcontra
        rcases List.mem_iff_get?.mp hpmem with ⟨k, hk⟩
        rcases hposition p k hk with ⟨hk_lt, hknum, _⟩
        rw [hcontra] at hknum
        exact hfirst k hk_lt hknum
      have hprefd0 : ∀ p ∈ (st.instruction_numbers.zip
          block.instrs).take i, p.2.dest = some d0 → p.1 = some n := by
        intro p hpmem hdk
        exfalso
        rcases List.mem_iff_get?.mp hpmem with ⟨k, hk⟩
        rcases hposition p k hk with ⟨hk_lt, _, hkins⟩
        have := huniq_d0 k p.2 hkins hdk
        omega
      have hprefdj : ∀ p ∈ (st.instruction_numbers.zip
          block.instrs).take i, p.2.dest = some dj → p.1 = some n := by
        intro p hpmem hdk
        exfalso
        rcases List.mem_iff_get?.mp hpmem with ⟨k, hk⟩
        rcases hposition p k hk with ⟨hk_lt, _, hkins⟩
        have := huniq_dj k p.2 hkins hdk
        omega
      rcases pass3_fold_canon_ref d0 dj n none _ _ _ hsti
        (Or.inl rfl) (Or.inl rfl) rfl (Or.inr hprefnum) hprefd0 hprefdj with
        ⟨⟨hnv0_pre, hnvj_pre, hcanon_pre⟩, hprov_pre⟩
      -- positions inside the tail after i
      have hsufpos : ∀ (p : Option Nat × Instruction) (k : Nat),
          ((st.instruction_numbers.zip block.instrs).drop (i + 1)).get? k
            = some p →
          st.instruction_numbers.get? (i + 1 + k) = some p.1 ∧
            block.instrs.get? (i + 1 + k) = some p.2 := by
        intro p k hk
        rw [List.get?_drop] at hk
        exact ⟨(zip_get?_inv _ _ _ _ hk).1, (zip_get?_inv _ _ _ _ hk).2⟩
      have hsufd0 : ∀ p ∈ (st.instruction_numbers.zip
          block.instrs).drop (i + 1), p.2.dest = some d0 → p.1 = some n := by
        intro p hpmem hdk
        exfalso
        rcases List.mem_iff_get?.mp hpmem with ⟨k, hk⟩
        rcases hsufpos p k hk with ⟨_, hkins⟩
        have := huniq_d0 (i + 1 + k) p.2 hkins hdk
        omega
      have hsufdj : ∀ p ∈ (st.instruction_numbers.zip
          block.instrs).drop (i + 1), p.2.dest = some dj → p.1 = some n := by
        intro p hpmem hdk
        rcases List.mem_iff_get?.mp hpmem with ⟨k, hk⟩
        rcases hsufpos p k hk with ⟨hknum, hkins⟩
        have hkj := huniq_dj (i + 1 + k) p.2 hkins hdk
        rw [hkj] at hknum
        have := hnj.symm.trans hknum
        exact (Option.some.inj this).symm
      have hnodup_sti : sti.used.Nodup :=
        pass3_fold_used_nodup _ _ _ hsti hnodup0
      have hmem_take : ∀ (q : Option Nat × Instruction),
          q ∈ (st.instruction_numbers.zip block.instrs).take i →
          q.2 ∈ block.instrs := by
        intro q hq
        exact (List.of_mem_zip (List.take_subset _ _ hq)).2
      have hmem_drop : ∀ (q : Option Nat × Instruction),
          q ∈ (st.instruction_numbers.zip block.instrs).drop (i + 1) →
          q.2 ∈ block.instrs := by
        intro q hq
        exact (List.of_mem_zip (List.drop_subset _ _ hq)).2
      rcases pass3Step_cases sti sti1 (some n, bi) hstep with
        ⟨hp1, _, _, _⟩ | ⟨n2, dd, hp1, hdd, hcont, hst1⟩ |
        ⟨n2, dd, o_i, hp1, hdd, hcont, hrw, hst1⟩
      · cases hp1
      · -- instruction i dropped: the canonical entry for n stays empty,
        -- so no emitted instruction can reference the two names at all
        have hn2 : n = n2 := Option.some.inj hp1
        subst hn2
        have hdd0 : d0 = dd := by
          have h4 : bi.dest = some dd := hdd
          rw [hd0] at h4
          exact Option.some.inj h4
        subst hdd0
        subst hst1
        have hnmem : n ∉ sti.used := by
          intro hmem
          rw [(contains_true_iff_mem _ _).mpr hmem] at hcont
          cases hcont
        rcases pass3_fold_canon_ref d0 dj n none _ _ _ hrest'
          (Or.inr (by
            show (if d0 = d0 then some n
              else sti.new_variable_to_number d0) = some n
            rw [if_pos rfl]))
          (by
            rcases hnvj_pre with hx | hx
            · exact Or.inl (by
                show (if dj = d0 then some n
                  else sti.new_variable_to_number dj) = none
                rw [if_neg hne]
                exact hx)
            · exact Or.inr (by
                show (if dj = d0 then some n
                  else sti.new_variable_to_number dj) = some n
                rw [if_neg hne]
                exact hx))
          hcanon_pre (Or.inl hnmem) hsufd0 hsufdj with ⟨_, hprov_suf⟩
        intro o ho
        rcases hprov_suf o ho with hin | ⟨q, hq, hsh, hqprop⟩
        · rcases hprov_pre o hin with hin0 | ⟨q, hq, hsh, hqprop⟩
          · simp [initialPass3State] at hin0
          · refine ⟨q.2, hmem_take q hq, hsh, ?_⟩
            intro t href
            rcases hqprop t href with ⟨dv, hdv, _⟩
            cases hdv
        · refine ⟨q.2, hmem_drop q hq, hsh, ?_⟩
          intro t href
          rcases hqprop t href with ⟨dv, hdv, _⟩
          cases hdv
      · -- instruction i kept: it is the canonical producer of n and every
        -- later reference to either name is rewritten to its destination
        have hn2 : n = n2 := Option.some.inj hp1
        subst hn2
        have hdd0 : d0 = dd := by
          have h4 : bi.dest = some dd := hdd
          rw [hd0] at h4
          exact Option.some.inj h4
        subst hdd0
        subst hst1
        have hnmem : n ∉ sti.used.erase n := by
          intro hmem
          exact (hnodup_sti.mem_erase_iff.mp hmem).1 rfl
        rcases pass3_fold_canon_ref d0 dj n (some d0) _ _ _ hrest'
          (Or.inr (by
            show (if d0 = d0 then some n
              else sti.new_variable_to_number d0) = some n
            rw [if_pos rfl]))
          (by
            rcases hnvj_pre with hx | hx
            · exact Or.inl (by
                show (if dj = d0 then some n
                  else sti.new_variable_to_number dj) = none
                rw [if_neg hne]
                exact hx)
            · exact Or.inr (by
                show (if dj = d0 then some n
                  else sti.new_variable_to_number dj) = some n
                rw [if_neg hne]
                exact hx))
          (by
            show (if n = n then some d0
              else sti.number_to_canonical_dest n) = some d0
            rw [if_pos rfl])
          (Or.inl hnmem) hsufd0 hsufdj with ⟨_, hprov_suf⟩
        intro o ho
        rcases hprov_suf o ho with hin | ⟨q, hq, hsh, hqprop⟩
        · rcases List.mem_append.mp hin with hin2 | hin2
          · rcases hprov_pre o hin2 with hin0 | ⟨q, hq, hsh, hqprop⟩
            · simp [initialPass3State] at hin0
            · refine ⟨q.2, hmem_take q hq, hsh, ?_⟩
              intro t href
              rcases hqprop t href with ⟨dv, hdv, _⟩
              cases hdv
          · simp only [List.mem_singleton] at hin2
            subst hin2
            refine ⟨bi, List.get?_mem hbi,
              rewriteInstrArgs_shape _ _ _ _ hrw, ?_⟩
            intro t href
            have ha : ∃ a, bi.args.get? t = some a ∧
                (a = d0 ∨ a = dj) := by
              rcases href with hx | hx
              exacts [⟨d0, hx, Or.inl rfl⟩, ⟨dj, hx, Or.inr rfl⟩]
            rcases ha with ⟨a, hat, haa⟩
            rcases rewriteInstrArgs_get? _ _ _ _ hrw t a hat with
              ⟨v, hv1, hv2⟩
            have hb : ((if a = d0 then some n
                else sti.new_variable_to_number a)).bind
                (fun m => if m = n then some d0
                  else sti.number_to_canonical_dest m) = some v := hv1
            have hvv : v = d0 := by
              rcases haa with ha1 | ha2
              · rw [ha1, if_pos rfl] at hb
                have hb2 : (if n = n then some d0
                    else sti.number_to_canonical_dest n) = some v := hb
                rw [if_pos rfl] at hb2
                exact (Option.some.inj hb2).symm
              · rw [ha2, if_neg hne] at hb
                rcases hnvj_pre with hx | hx
                · rw [hx] at hb
                  cases hb
                · rw [hx] at hb
                  have hb2 : (if n = n then some d0
                      else sti.number_to_canonical_dest n) = some v := hb
                  rw [if_pos rfl] at hb2
                  exact (Option.some.inj hb2).symm
            rw [← hvv]
            exact hv2
        · refine ⟨q.2, hmem_drop q hq, hsh, ?_⟩
          intro t href
          rcases hqprop t href with ⟨dv, hdv, hov⟩
          have : d0 = dv := Option.some.inj hdv
          rw [this]
          exact hov

/-- C5 amended: within a block, any two destination-bearing instructions
that resolve to the same value expression — the same non-constant opcode
applied to the same ordered list of resolved argument value numbers, or
`const` of the same literal value (constants are keyed by literal, not by
opcode and arguments) — are assigned the same value number; and, provided
no destination name is reassigned within the block, whenever two
instructions are assigned the same value number the later one does not
survive pruning — its destination is neither the destination nor an
argument of any instruction in the rewritten block — and every kept
reference to either instruction's destination is rewritten, at its
position, to the destination name of the surviving first producer of that
value number. -/
theorem congruence_amended (block out : Block) (st : Pass1State)
    (hp : pass1 block.instrs = some st)
    (hrun : run_local_value_numbering block = some out) :
    (∀ i j a b si sj e, i < j →
      block.instrs.get? i = some a → block.instrs.get? j = some b →
      a.dest.isSome = true → b.dest.isSome = true →
      pass1 (block.instrs.take i) = some si →
      pass1 (block.instrs.take j) = some sj →
      resolvedExpression si a = some e →
      resolvedExpression sj b = some e →
      ∃ n, st.instruction_numbers.get? i = some (some n) ∧
           st.instruction_numbers.get? j = some (some n)) ∧
    ((block.instrs.filterMap Instruction.dest).Nodup →
      ∀ i j n bj d, i < j →
        st.instruction_numbers.get? i = some (some n) →
        st.instruction_numbers.get? j = some (some n) →
        block.instrs.get? j = some bj → bj.dest = some d →
        ∀ o ∈ out.instrs, o.dest ≠ some d ∧ d ∉ o.args) ∧
    ((block.instrs.filterMap Instruction.dest).Nodup →
      ∀ i j n bi bj d0 dj, i < j →
        (∀ k, k < i → st.instruction_numbers.get? k ≠ some (some n)) →
        st.instruction_numbers.get? i = some (some n) →
        st.instruction_numbers.get? j = some (some n) →
        block.instrs.get? i = some bi → bi.dest = some d0 →
        block.instrs.get? j = some bj → bj.dest = some dj →
        ∀ o ∈ out.instrs, ∃ ins ∈ block.instrs, InstrShapeEq o ins ∧
          ∀ t, (ins.args.get? t = some d0 ∨ ins.args.get? t = some dj) →
            o.args.get? t = some d0) :=
  ⟨fun i j a b si sj e hij hai hbj hda hdb hsi hsj hea heb =>
    pass1_congruence block.instrs st hp i j a b si sj e hij hai hbj hda hdb
      hsi hsj hea heb,
   fun hnd i j n bj d hij hni hnj hbj hdj =>
    pass3_prune block out st hp hrun hnd i j n bj d hij hni hnj hbj hdj,
   fun hnd i j n bi bj d0 dj hij hfirst hni hnj hbi hd0 hbj hdj =>
    pass3_rewrite_survivor block out st hp hrun hnd i j n bi bj d0 dj hij
      hfirst hni hnj hbi hd0 hbj hdj⟩

/-- Witness for the amended congruence theorem at the duplicate-constant
block `[x = const 4; y = const 4; print x; print y]`: both constants get
the same number, the pruned `y` appears nowhere in the output, and every
output instruction comes from an input instruction whose references to
`x` or `y` became `x`, the surviving producer's name. -/
theorem congruence_amended_witness :
    ∃ st, pass1 dupConstBlock.instrs = some st ∧
      (∃ n, st.instruction_numbers.get? 0 = some (some n) ∧
        st.instruction_numbers.get? 1 = some (some n)) ∧
      (∀ o ∈ ([mkConst "x" 4, mkEffect "print" ["x"],
          mkEffect "print" ["x"]] : List Instruction),
        o.dest ≠ some "y" ∧ "y" ∉ o.args) ∧
      ∀ o ∈ ([mkConst "x" 4, mkEffect "print" ["x"],
          mkEffect "print" ["x"]] : List Instruction),
        ∃ ins ∈ dupConstBlock.instrs, InstrShapeEq o ins ∧
          ∀ t, (ins.args.get? t = some "x" ∨ ins.args.get? t = some "y") →
            o.args.get? t = some "x" := by
  cases h : pass1 dupConstBlock.instrs with
  | none =>
    have hs : (pass1 dupConstBlock.instrs).isSome = true := rfl
    rw [h] at hs
    cases hs
  | some st =>
    have hrun : run_local_value_numbering dupConstBlock =
        some ⟨[mkConst "x" 4, mkEffect "print" ["x"],
          mkEffect "print" ["x"]], []⟩ := rfl
    have hmain := congruence_amended dupConstBlock
      ⟨[mkConst "x" 4, mkEffect "print" ["x"], mkEffect "print" ["x"]], []⟩
      st h hrun
    cases h1 : pass1 (dupConstBlock.instrs.take 1) with
    | none =>
      have hs : (pass1 (dupConstBlock.instrs.take 1)).isSome = true := rfl
      rw [h1] at hs
      cases hs
    | some s1 =>
      have hpart1 := hmain.1 0 1 (mkConst "x" 4) (mkConst "y" 4)
        initialPass1State s1 (Expression.Const 4)
        (by omega) rfl rfl rfl rfl rfl h1 rfl rfl
      rcases hpart1 with ⟨n, hn0, hn1⟩
      refine ⟨st, rfl, ⟨n, hn0, hn1⟩, ?_, ?_⟩
      · exact hmain.2.1 (by decide) 0 1 n (mkConst "y" 4) "y" (by omega)
          hn0 hn1 rfl rfl
      · exact hmain.2.2 (by decide) 0 1 n (mkConst "x" 4) (mkConst "y" 4)
          "x" "y" (by omega) (fun k hk => absurd hk (by omega))
          hn0 hn1 rfl rfl rfl rfl

end LVN
